import Mathlib

/-!
Verification of the call-trace recorder and tree visualizer of the `rec`
repository.

The recorder is the Python code embedded as the string `TRACER_PY` in
`src/tracerPrelude.ts`; the layout engine and the wire serializer live in
`src/App.tsx`.  Python values captured by the tracer (arguments, results)
are modeled by their display strings, so Python `repr` is modeled as the
identity on them.  All machine integers involved are small nonnegative
counters/ids, modeled by `Nat`.
-/

namespace Tracer

/-- State of the closure created by one application of `deco` in `TRACER_PY`
(`def deco(fn): next_id = 0; stack = []`).  Note that in the source these
variables live in the closure of `deco`, hence there is one such state per
wrapped function. -/
structure FnState where
  next_id : Nat
  stack : List Nat
deriving Repr, DecidableEq

/-- One value of the trace dictionary: the tuple
`(parent, args, kwargs, result)` stored by `tree_dict[my_id] = (parent, args,
kwargs, result)` (line 20 of `TRACER_PY`).  There is no function-name
component in the stored tuple. -/
structure Entry where
  parent : Option Nat
  args : List String
  kwargs : List (String × String)
  result : String
deriving Repr, DecidableEq

/-- Python dictionary assignment `d[k] = v`: replace the value in place when
the key is present (keeping its position in insertion order), otherwise
append the new binding at the end. -/
def dictSet (d : List (Nat × Entry)) (k : Nat) (v : Entry) : List (Nat × Entry) :=
  if d.any (fun p => p.1 = k) then
    d.map (fun p => if p.1 = k then (k, v) else p)
  else d ++ [(k, v)]

/-- Pointwise update of the family of per-wrapped-function closure states. -/
def updFn (g : Nat → FnState) (i : Nat) (v : FnState) : Nat → FnState :=
  fun j => if j = i then v else g j

/-- Global state of one trace session: the shared `tree` dictionary plus the
closure state (`next_id`, `stack`) of every wrapped function, indexed by an
arbitrary numbering of the wrapped functions. -/
structure RecState where
  tree : List (Nat × Entry)
  fns : Nat → FnState

/-- The state at the start of a session: empty tree, and every wrapped
function with `next_id = 0` and an empty stack. -/
def initState : RecState :=
  { tree := [], fns := fun _ => ⟨0, []⟩ }

mutual

/-- A dynamic call to a wrapped function: which wrapped function it goes
through (`f`), the captured positional/keyword arguments, the nested traced
calls its body performs in order (`body`), and its outcome: `some r` when the
body returns the value `r` after the nested calls, `none` when it raises.  An
exception raised by a nested call propagates (aborting the remaining body). -/
inductive Call where
  | mk (f : Nat) (args : List String) (kwargs : List (String × String))
      (body : Body) (outcome : Option String)

/-- A sequence of nested traced calls performed by a wrapped function body. -/
inductive Body where
  | nil
  | cons (c : Call) (rest : Body)

end

mutual

/-- Operational semantics of `wrapper` in `TRACER_PY` (lines 11-23): allocate
`my_id` from the function's own `next_id`, read `parent` from the top of the
function's own `stack`, push `my_id`, run the body, record the
`(parent, args, kwargs, result)` tuple only on success, and pop the stack
unconditionally.  Returns the state after the call and `true` iff the call
completed without raising. -/
def execCall (s : RecState) : Call → RecState × Bool
  | .mk f args kwargs body outcome =>
    let fs := s.fns f
    let my_id := fs.next_id
    let parent := fs.stack.getLast?
    let s1 : RecState := { s with fns := updFn s.fns f ⟨fs.next_id + 1, fs.stack ++ [my_id]⟩ }
    let r := execBody s1 body
    let s2 := r.1
    if r.2 then
      match outcome with
      | some res =>
        let s3 : RecState :=
          { s2 with tree := dictSet s2.tree my_id ⟨parent, args, kwargs, res⟩ }
        ({ s3 with fns := updFn s3.fns f ⟨(s3.fns f).next_id, (s3.fns f).stack.dropLast⟩ }, true)
      | none =>
        ({ s2 with fns := updFn s2.fns f ⟨(s2.fns f).next_id, (s2.fns f).stack.dropLast⟩ }, false)
    else
      ({ s2 with fns := updFn s2.fns f ⟨(s2.fns f).next_id, (s2.fns f).stack.dropLast⟩ }, false)

/-- Execute the nested traced calls of a body in order, stopping at the first
one that raises (its exception propagates to the enclosing wrapper). -/
def execBody (s : RecState) : Body → RecState × Bool
  | .nil => (s, true)
  | .cons c rest =>
    let r := execCall s c
    if r.2 then execBody r.1 rest else r

end

/-- Top-level evaluation of a sequence of independent traced calls in one
session; the host catches any exception between the calls, so a failed call
does not stop the following ones. -/
def execTop (s : RecState) : List Call → RecState
  | [] => s
  | c :: cs => execTop (execCall s c).1 cs

/-- Modelled from the spec: the `reset_trace` entry point that `App.tsx`
invokes before each run (`pythonLines` contains the line `reset_trace()`) is
not defined anywhere under `src`; per the spec it must "clear both the id
counter and the call stack and the trace table". -/
def reset_trace (_s : RecState) : RecState :=
  { tree := [], fns := fun _ => ⟨0, []⟩ }

/-! ### Concrete programs used as counterexamples and witnesses -/

/-- A call to wrapped function number 1 succeeding with result "1" and no
nested calls. -/
def innerOkCall : Call := .mk 1 [] [] .nil (some "1")

/-- A call to wrapped function number 0 whose body calls the differently
wrapped function number 1 and then raises. -/
def crossCall : Call := .mk 0 [] [] (.cons innerOkCall .nil) none

/-- A zero-argument top-level call to wrapped function number 0 returning "a". -/
def fCall : Call := .mk 0 [] [] .nil (some "a")

/-- A zero-argument top-level call to wrapped function number 1 returning "b". -/
def gCall : Call := .mk 1 [] [] .nil (some "b")

/-- The dynamic call tree of `fib(1)` for the traced `fib` of the spec. -/
def fibCall1 : Call := .mk 0 ["1"] [] .nil (some "1")

/-- The dynamic call tree of `fib(0)`. -/
def fibCall0 : Call := .mk 0 ["0"] [] .nil (some "0")

/-- The dynamic call tree of `fib(2) = fib(1) + fib(0)`. -/
def fibCall2 : Call := .mk 0 ["2"] [] (.cons fibCall1 (.cons fibCall0 .nil)) (some "1")

/-- The dynamic call tree of `fib(3) = fib(2) + fib(1)`. -/
def fibCall3 : Call := .mk 0 ["3"] [] (.cons fibCall2 (.cons fibCall1 .nil)) (some "2")

/-! ### The wire form of the trace table (App.tsx serialization) -/

/-- A Python runtime value as far as the serialization loop generated by
`App.tsx` needs to distinguish them. -/
inductive PyVal where
  | vnone
  | vint (n : Nat)
  | vstr (s : String)
  | vargs (a : List String)
  | vkwargs (k : List (String × String))
deriving Repr, DecidableEq

/-- The tuple actually stored by `wrapper` for one recorded call
(`tree_dict[my_id] = (parent, args, kwargs, result)`), as the sequence of the
Python values it contains.  It has four components and none of them is a
function name. -/
def entryTuple (e : Entry) : List PyVal :=
  [(match e.parent with | none => PyVal.vnone | some p => PyVal.vint p),
   PyVal.vargs e.args, PyVal.vkwargs e.kwargs, PyVal.vstr e.result]

/-- One record of the wire form for the Presentation Adapter: the six fields
`id`, `parent`, `functionName`, `args`, `kwargs`, `result` built by the
`payload.append({...})` statement in the Python code that `App.tsx` generates. -/
structure WireRecord where
  id : Nat
  parent : Option Nat
  functionName : String
  args : List String
  kwargs : List (String × String)
  result : String
deriving Repr, DecidableEq

/-- The tuple unpacking and record construction of the serialization loop
generated by `App.tsx`:
`for nid, (parent, fn_name, args, kwargs, result) in tree.items(): ...`.
Unpacking a tuple whose length is not five raises `ValueError`, modeled by
`none`; likewise a component of an unexpected shape fails. -/
def serializeItem (nid : Nat) (tup : List PyVal) : Option WireRecord :=
  match tup with
  | [p, fn, a, k, r] =>
    match p, fn, a, k, r with
    | PyVal.vnone, PyVal.vstr fns, PyVal.vargs ar, PyVal.vkwargs kw, PyVal.vstr re =>
      some ⟨nid, none, fns, ar, kw, re⟩
    | PyVal.vint pp, PyVal.vstr fns, PyVal.vargs ar, PyVal.vkwargs kw, PyVal.vstr re =>
      some ⟨nid, some pp, fns, ar, kw, re⟩
    | _, _, _, _, _ => none
  | _ => none

/-- Serialize a whole trace table to the wire form; a Python exception while
serializing any item aborts the generated code, modeled by `none`. -/
def serializeTree (t : List (Nat × Entry)) : Option (List WireRecord) :=
  t.mapM (fun ke => serializeItem ke.1 (entryTuple ke.2))

/-! ### Claims settled by direct evaluation -/

/-- Claim C2 (code_bug evidence): `next_id` lives in the closure of `deco`,
so each wrapped function has its own counter.  Calling two differently
wrapped functions `f` and `g` once each gives BOTH calls id 0: `g`'s record
overwrites `f`'s record in the shared `tree` dictionary, and both closure
counters end at 1.  Under the claim, `g`'s call would have received id 1 from
a single shared counter and the table would hold two records. -/
theorem c2_per_function_counters :
    (execTop initState [fCall, gCall]).tree = [(0, ⟨none, [], [], "b"⟩)]
      ∧ (execTop initState [fCall, gCall]).fns 0 = ⟨1, []⟩
      ∧ (execTop initState [fCall, gCall]).fns 1 = ⟨1, []⟩ := by
  decide

/-- Claim C1 (counterexample): `stack` also lives in the closure of `deco`,
so each wrapped function has its own call stack.  When wrapped function 0
calls wrapped function 1 from inside its body (and then raises, so that only
the nested call's record remains), the nested traced call records
`parent = none` although invocation id 0 of function 0 was active on the
dynamic call stack when it began: no recorded node of the run has a non-null
parent, so the recorded parent is NOT the id of the invoking traced call. -/
theorem c1_cross_wrapper_counterexample :
    (execCall initState crossCall).1.tree = [(0, ⟨none, [], [], "1"⟩)]
      ∧ (execCall initState crossCall).1.tree.all (fun ke => ke.2.parent == none) = true := by
  decide

/-- Claim C3 (confirmed, spec-modelled): invoking the `reset_trace` entry
point clears the trace table, every id counter and every call stack together,
so that execution after a reset coincides with execution from the pristine
session state. -/
theorem c3_reset_clears_state (s : RecState) :
    (reset_trace s).tree = []
      ∧ (∀ f, (reset_trace s).fns f = ⟨0, []⟩)
      ∧ (∀ cs, execTop (reset_trace s) cs = execTop initState cs) := by
  exact ⟨rfl, fun _ => rfl, fun _ => rfl⟩

/-! ### Stack discipline -/

/-- Association-list lookup, modeling both Python `d[k]` (where `none` stands
for a `KeyError`) and the JavaScript `Map.get` (where `none` stands for
`undefined`).  Matches the first binding, mirroring a keyed map. -/
def lookupKey {β : Type} (k : Nat) : List (Nat × β) → Option β
  | [] => none
  | p :: rest => if p.1 = k then some p.2 else lookupKey k rest

/-- Looking up a key just stored by Python dictionary assignment yields the
stored value. -/
theorem lookupKey_dictSet_self (d : List (Nat × Entry)) (k : Nat) (v : Entry) :
    lookupKey k (dictSet d k v) = some v := by
  unfold dictSet
  induction d with
  | nil => simp [lookupKey]
  | cons p rest ih =>
    by_cases hp : p.1 = k
    · have hany : ((p :: rest).any fun q => decide (q.1 = k)) = true := by simp [hp]
      rw [if_pos hany]
      simp [lookupKey, hp]
    · by_cases ha : (rest.any fun q => decide (q.1 = k)) = true
      · have hany : ((p :: rest).any fun q => decide (q.1 = k)) = true := by
          simp only [List.any_cons, ha, Bool.or_true]
        rw [if_pos hany]
        rw [if_pos ha] at ih
        simp only [List.map_cons, if_neg hp, lookupKey]
        exact ih
      · have hany : ¬ ((p :: rest).any fun q => decide (q.1 = k)) = true := by
          simp only [List.any_cons, Bool.or_eq_true, not_or]
          exact ⟨by simpa using hp, ha⟩
        rw [if_neg hany]
        rw [if_neg ha] at ih
        simp only [List.cons_append, lookupKey]
        rw [if_neg hp]
        exact ih

mutual

/-- Executing any traced call restores the call stack of every wrapped
function to its pre-call content, whether the call succeeds or raises: the
pop in the `finally` block exactly undoes the push. -/
theorem stack_preserved_call (c : Call) (s : RecState) (j : Nat) :
    ((execCall s c).1.fns j).stack = (s.fns j).stack := by
  cases c with
  | mk f args kwargs body outcome =>
    have hb := stack_preserved_body body
      { s with fns := updFn s.fns f ⟨(s.fns f).next_id + 1, (s.fns f).stack ++ [(s.fns f).next_id]⟩ }
    simp only [execCall]
    split
    · split
      · by_cases hj : j = f
        · subst hj
          simp only [updFn, if_pos rfl]
          rw [hb j]
          simp [updFn, List.dropLast_concat]
        · simp only [updFn, if_neg hj]
          rw [hb j]
          simp [updFn, hj]
      · by_cases hj : j = f
        · subst hj
          simp only [updFn, if_pos rfl]
          rw [hb j]
          simp [updFn, List.dropLast_concat]
        · simp only [updFn, if_neg hj]
          rw [hb j]
          simp [updFn, hj]
    · by_cases hj : j = f
      · subst hj
        simp only [updFn, if_pos rfl]
        rw [hb j]
        simp [updFn, List.dropLast_concat]
      · simp only [updFn, if_neg hj]
        rw [hb j]
        simp [updFn, hj]

/-- Executing a body of nested traced calls restores every call stack. -/
theorem stack_preserved_body (b : Body) (s : RecState) :
    ∀ j, ((execBody s b).1.fns j).stack = (s.fns j).stack := by
  cases b with
  | nil => intro j; rfl
  | cons c rest =>
    intro j
    have hc := stack_preserved_call c s j
    have hr := stack_preserved_body rest (execCall s c).1
    simp only [execBody]
    split
    · rw [hr j, hc]
    · exact hc

end

/-! ### Id-ordering invariant of the recorder -/

/-- Every id on any wrapped function's call stack was allocated by that
function's counter, hence is below its `next_id`. -/
def stackInv (g : Nat → FnState) : Prop :=
  ∀ f, ∀ x ∈ (g f).stack, x < (g f).next_id

/-- Every recorded entry with a non-null parent has a parent id strictly
below its own id. -/
def treeInv (t : List (Nat × Entry)) : Prop :=
  ∀ ke ∈ t, ∀ p, ke.2.parent = some p → p < ke.1

theorem mem_of_getLast?_eq {l : List Nat} {a : Nat} (h : l.getLast? = some a) : a ∈ l := by
  have hmem : a ∈ l.getLast? := h
  obtain ⟨hne, rfl⟩ := List.mem_getLast?_eq_getLast hmem
  exact List.getLast_mem hne

/-- An entry of the dictionary after an assignment is either an old entry or
the assigned binding. -/
theorem mem_dictSet (d : List (Nat × Entry)) (k : Nat) (v : Entry) :
    ∀ ke ∈ dictSet d k v, ke ∈ d ∨ ke = (k, v) := by
  intro ke hke
  unfold dictSet at hke
  by_cases ha : (d.any fun q => decide (q.1 = k)) = true
  · rw [if_pos ha] at hke
    obtain ⟨q, hq, hqe⟩ := List.mem_map.mp hke
    by_cases hqk : q.1 = k
    · right
      rw [if_pos hqk] at hqe
      exact hqe.symm
    · left
      rw [if_neg hqk] at hqe
      exact hqe ▸ hq
  · rw [if_neg ha] at hke
    rcases List.mem_append.mp hke with h | h
    · exact Or.inl h
    · exact Or.inr (List.mem_singleton.mp h)

mutual

/-- Executing a traced call preserves both recorder invariants. -/
theorem inv_preserved_call (c : Call) (s : RecState)
    (h1 : stackInv s.fns) (h2 : treeInv s.tree) :
    stackInv (execCall s c).1.fns ∧ treeInv (execCall s c).1.tree := by
  cases c with
  | mk f args kwargs body outcome =>
    have hs1 : stackInv (updFn s.fns f
        ⟨(s.fns f).next_id + 1, (s.fns f).stack ++ [(s.fns f).next_id]⟩) := by
      intro j x hx
      by_cases hj : j = f
      · subst hj
        simp only [updFn, if_pos rfl] at hx ⊢
        rcases List.mem_append.mp hx with h | h
        · exact Nat.lt_succ_of_lt (h1 j x h)
        · rw [List.mem_singleton.mp h]
          exact Nat.lt_succ_self _
      · simp only [updFn, if_neg hj] at hx ⊢
        exact h1 j x hx
    have hbody := inv_preserved_body body
      { s with fns := updFn s.fns f ⟨(s.fns f).next_id + 1, (s.fns f).stack ++ [(s.fns f).next_id]⟩ }
      hs1 h2
    have hpar : ∀ p, (s.fns f).stack.getLast? = some p → p < (s.fns f).next_id := by
      intro p hp
      exact h1 f p (mem_of_getLast?_eq hp)
    have hpop : ∀ g : Nat → FnState, stackInv g →
        stackInv (updFn g f ⟨(g f).next_id, (g f).stack.dropLast⟩) := by
      intro g hg j x hx
      by_cases hj : j = f
      · subst hj
        simp only [updFn, if_pos rfl] at hx ⊢
        exact hg j x (List.dropLast_subset _ hx)
      · simp only [updFn, if_neg hj] at hx ⊢
        exact hg j x hx
    simp only [execCall]
    split
    · split
      · constructor
        · exact hpop _ hbody.1
        · intro ke hke p hp
          rcases mem_dictSet _ _ _ ke hke with h | h
          · exact hbody.2 ke h p hp
          · subst h
            simp only at hp
            exact hpar p hp
      · exact ⟨hpop _ hbody.1, hbody.2⟩
    · exact ⟨hpop _ hbody.1, hbody.2⟩

/-- Executing a body of nested traced calls preserves both recorder
invariants. -/
theorem inv_preserved_body (b : Body) (s : RecState)
    (h1 : stackInv s.fns) (h2 : treeInv s.tree) :
    stackInv (execBody s b).1.fns ∧ treeInv (execBody s b).1.tree := by
  cases b with
  | nil => exact ⟨h1, h2⟩
  | cons c rest =>
    have hc := inv_preserved_call c s h1 h2
    have hr := inv_preserved_body rest (execCall s c).1 hc.1 hc.2
    simp only [execBody]
    split
    · exact hr
    · exact hc

end

/-- Top-level execution preserves both recorder invariants. -/
theorem inv_preserved_top (cs : List Call) (s : RecState)
    (h1 : stackInv s.fns) (h2 : treeInv s.tree) :
    stackInv (execTop s cs).fns ∧ treeInv (execTop s cs).tree := by
  induction cs generalizing s with
  | nil => exact ⟨h1, h2⟩
  | cons c rest ih =>
    have hc := inv_preserved_call c s h1 h2
    exact ih (execCall s c).1 hc.1 hc.2

/-- Claim C10 (confirmed): ids are assigned on call entry and a parent enters
before its children, so after any session every recorded node with a non-null
parent has a parent id strictly smaller than its own id; in particular the
parent relation is acyclic and walking parent links strictly decreases the
id.  This holds for any family of wrapped functions, hence in particular when
all calls go through a single wrapped function. -/
theorem c10_parent_id_lt_id (cs : List Call) (k : Nat) (e : Entry) (p : Nat)
    (hmem : (k, e) ∈ (execTop initState cs).tree) (hp : e.parent = some p) :
    p < k := by
  have hinit1 : stackInv initState.fns := by
    intro f x hx
    simp [initState] at hx
  have hinit2 : treeInv initState.tree := by
    intro ke hke
    simp [initState] at hke
  exact (inv_preserved_top cs initState hinit1 hinit2).2 (k, e) hmem p hp

/-- Claim C10 witness: in the trace of `fib(3)`, node 2 is recorded with
parent 1, and indeed 1 < 2. -/
theorem c10_parent_id_lt_id_witness :
    ((2 : Nat), (⟨some 1, ["1"], [], "1"⟩ : Entry)) ∈ (execTop initState [fibCall3]).tree
      ∧ 1 < 2 :=
  ⟨by decide, c10_parent_id_lt_id [fibCall3] 2 ⟨some 1, ["1"], [], "1"⟩ 1 (by decide) rfl⟩

/-! ### The recorder refines the claimed parent discipline for a single
wrapped function -/

mutual

/-- Does every call of this dynamic call tree go through wrapped function
number `i`? -/
def usesOnlyCall (i : Nat) : Call → Bool
  | .mk f _ _ body _ => f == i && usesOnlyBody i body

/-- Does every call of this body go through wrapped function number `i`? -/
def usesOnlyBody (i : Nat) : Body → Bool
  | .nil => true
  | .cons c rest => usesOnlyCall i c && usesOnlyBody i rest

end

mutual

/-- Modelled from the claim/spec wording, for comparison with `execCall`:
the expected recorded nodes of one traced call given the id `pa` of the
invocation that was active when the call began (`none` at top level) and the
next free id `n`.  The call itself takes id `n`; every nested call made from
within sees `some n` as its parent; the call's own node, recorded after its
body, carries parent `pa`; nothing is recorded for the call if it raises.
Returns the expected recorded nodes in recording order, the next free id
afterwards, and whether the call completed. -/
def specCall (pa : Option Nat) (n : Nat) : Call → List (Nat × Entry) × Nat × Bool
  | .mk _ a k body out =>
    let r := specBody (some n) (n + 1) body
    if r.2.2 then
      match out with
      | some res => (r.1 ++ [(n, ⟨pa, a, k, res⟩)], r.2.1, true)
      | none => (r.1, r.2.1, false)
    else r

/-- Expected recorded nodes of a body of nested calls, all with parent `pa`,
ids allocated left to right from `n`, stopping at the first raising call. -/
def specBody (pa : Option Nat) (n : Nat) : Body → List (Nat × Entry) × Nat × Bool
  | .nil => ([], n, true)
  | .cons c rest =>
    let r := specCall pa n c
    if r.2.2 then
      let r2 := specBody pa r.2.1 rest
      (r.1 ++ r2.1, r2.2.1, r2.2.2)
    else r

end

/-- Updating the same index twice keeps only the second update. -/
theorem updFn_updFn (g : Nat → FnState) (i : Nat) (v w : FnState) :
    updFn (updFn g i v) i w = updFn g i w := by
  funext j
  by_cases hj : j = i <;> simp [updFn, hj]

/-- Reading an updated family at the updated index gives the new value. -/
theorem updFn_apply_self (g : Nat → FnState) (i : Nat) (v : FnState) :
    updFn g i v i = v := by
  simp [updFn]

/-- Assigning a key absent from a Python dictionary appends the binding. -/
theorem dictSet_fresh (d : List (Nat × Entry)) (k : Nat) (v : Entry)
    (h : ∀ ke ∈ d, ke.1 ≠ k) : dictSet d k v = d ++ [(k, v)] := by
  unfold dictSet
  rw [if_neg]
  simp only [List.any_eq_true, decide_eq_true_eq, not_exists, not_and]
  intro q hq
  exact fun hqk => h q hq hqk

mutual

/-- Ids allocated by the claim-side trace of one call lie in
`[n, next free id)`, and the next free id never decreases. -/
theorem specCall_keys (c : Call) (pa : Option Nat) (n : Nat) :
    n ≤ (specCall pa n c).2.1
      ∧ ∀ ke ∈ (specCall pa n c).1, n ≤ ke.1 ∧ ke.1 < (specCall pa n c).2.1 := by
  cases c with
  | mk f a k body out =>
    have hb := specBody_keys body (some n) (n + 1)
    simp only [specCall]
    split
    · cases out with
      | some res =>
        refine ⟨Nat.le_of_succ_le hb.1, ?_⟩
        intro ke hke
        rcases List.mem_append.mp hke with hm | hm
        · exact ⟨Nat.le_of_succ_le (hb.2 ke hm).1, (hb.2 ke hm).2⟩
        · rw [List.mem_singleton.mp hm]
          exact ⟨Nat.le_refl n, Nat.lt_of_lt_of_le (Nat.lt_succ_self n) hb.1⟩
      | none =>
        refine ⟨Nat.le_of_succ_le hb.1, ?_⟩
        intro ke hke
        exact ⟨Nat.le_of_succ_le (hb.2 ke hke).1, (hb.2 ke hke).2⟩
    · refine ⟨Nat.le_of_succ_le hb.1, ?_⟩
      intro ke hke
      exact ⟨Nat.le_of_succ_le (hb.2 ke hke).1, (hb.2 ke hke).2⟩

/-- Ids allocated by the claim-side trace of a body lie in
`[n, next free id)`, and the next free id never decreases. -/
theorem specBody_keys (b : Body) (pa : Option Nat) (n : Nat) :
    n ≤ (specBody pa n b).2.1
      ∧ ∀ ke ∈ (specBody pa n b).1, n ≤ ke.1 ∧ ke.1 < (specBody pa n b).2.1 := by
  cases b with
  | nil => exact ⟨Nat.le_refl n, fun ke hke => absurd hke (List.not_mem_nil ke)⟩
  | cons c rest =>
    have hc := specCall_keys c pa n
    have hr := specBody_keys rest pa (specCall pa n c).2.1
    simp only [specBody]
    split
    · refine ⟨Nat.le_trans hc.1 hr.1, ?_⟩
      intro ke hke
      rcases List.mem_append.mp hke with hm | hm
      · exact ⟨(hc.2 ke hm).1, Nat.lt_of_lt_of_le (hc.2 ke hm).2 hr.1⟩
      · exact ⟨Nat.le_trans hc.1 (hr.2 ke hm).1, (hr.2 ke hm).2⟩
    · exact hc

end

mutual

/-- The recorder agrees exactly with the claim-side trace as long as every
call goes through the single wrapped function number 0: starting from any
state whose recorded keys are below function 0's counter `n` and whose
function-0 stack is `st`, executing a call appends exactly the claim-side
records (each child's parent being the id of the call that invoked it),
advances the counter as the claim prescribes, and restores the stack. -/
theorem execCall_spec (c : Call) (h : usesOnlyCall 0 c = true) (s : RecState)
    (n : Nat) (st : List Nat) (hf : s.fns 0 = ⟨n, st⟩)
    (hk : ∀ ke ∈ s.tree, ke.1 < n) :
    execCall s c = (⟨s.tree ++ (specCall st.getLast? n c).1,
                    updFn s.fns 0 ⟨(specCall st.getLast? n c).2.1, st⟩⟩,
                   (specCall st.getLast? n c).2.2) := by
  cases c with
  | mk f a k body out =>
    simp only [usesOnlyCall, Bool.and_eq_true, beq_iff_eq] at h
    obtain ⟨hf0, hbody⟩ := h
    subst hf0
    have hf1 : ({ s with fns := updFn s.fns 0 ⟨n + 1, st ++ [n]⟩ } : RecState).fns 0
        = ⟨n + 1, st ++ [n]⟩ := by
      simp [updFn]
    have hk1 : ∀ ke ∈ ({ s with fns := updFn s.fns 0 ⟨n + 1, st ++ [n]⟩ } : RecState).tree,
        ke.1 < n + 1 :=
      fun ke hke => Nat.lt_succ_of_lt (hk ke hke)
    have hb := execBody_spec body hbody
      { s with fns := updFn s.fns 0 ⟨n + 1, st ++ [n]⟩ } (n + 1) (st ++ [n]) hf1 hk1
    have hkeys := specBody_keys body (some n) (n + 1)
    simp only [execCall, hf, List.getLast?_concat] at hb ⊢
    rw [hb]
    simp only [specCall, List.getLast?_concat]
    have hfresh : ∀ ke ∈ s.tree ++ (specBody (some n) (n + 1) body).1, ke.1 ≠ n := by
      intro ke hke
      rcases List.mem_append.mp hke with hm | hm
      · exact Nat.ne_of_lt (hk ke hm)
      · exact Nat.ne_of_gt (hkeys.2 ke hm).1
    split
    · cases out with
      | some res =>
        dsimp only
        rw [dictSet_fresh _ _ _ hfresh, List.append_assoc]
        simp [updFn_updFn, updFn_apply_self, List.dropLast_concat]
      | none =>
        dsimp only
        simp [updFn_updFn, updFn_apply_self, List.dropLast_concat]
    · rename_i hok
      simp [updFn_updFn, updFn_apply_self, List.dropLast_concat]
      exact Bool.eq_false_iff.mpr hok

/-- The recorder agrees with the claim-side trace on bodies whose calls all
go through wrapped function number 0. -/
theorem execBody_spec (b : Body) (h : usesOnlyBody 0 b = true) (s : RecState)
    (n : Nat) (st : List Nat) (hf : s.fns 0 = ⟨n, st⟩)
    (hk : ∀ ke ∈ s.tree, ke.1 < n) :
    execBody s b = (⟨s.tree ++ (specBody st.getLast? n b).1,
                    updFn s.fns 0 ⟨(specBody st.getLast? n b).2.1, st⟩⟩,
                   (specBody st.getLast? n b).2.2) := by
  cases b with
  | nil =>
    simp only [execBody, specBody, List.append_nil]
    have : updFn s.fns 0 ⟨n, st⟩ = s.fns := by
      funext j
      by_cases hj : j = 0
      · subst hj; simp [updFn, hf]
      · simp [updFn, hj]
    rw [this]
  | cons c rest =>
    simp only [usesOnlyBody, Bool.and_eq_true] at h
    obtain ⟨hc, hrest⟩ := h
    have h1 := execCall_spec c hc s n st hf hk
    have hckeys := specCall_keys c st.getLast? n
    have hf2 : (⟨s.tree ++ (specCall st.getLast? n c).1,
        updFn s.fns 0 ⟨(specCall st.getLast? n c).2.1, st⟩⟩ : RecState).fns 0
        = ⟨(specCall st.getLast? n c).2.1, st⟩ := by
      simp [updFn]
    have hk2 : ∀ ke ∈ (⟨s.tree ++ (specCall st.getLast? n c).1,
        updFn s.fns 0 ⟨(specCall st.getLast? n c).2.1, st⟩⟩ : RecState).tree,
        ke.1 < (specCall st.getLast? n c).2.1 := by
      intro ke hke
      rcases List.mem_append.mp hke with hm | hm
      · exact Nat.lt_of_lt_of_le (hk ke hm) hckeys.1
      · exact (hckeys.2 ke hm).2
    have h2 := execBody_spec rest hrest
      ⟨s.tree ++ (specCall st.getLast? n c).1,
        updFn s.fns 0 ⟨(specCall st.getLast? n c).2.1, st⟩⟩
      (specCall st.getLast? n c).2.1 st hf2 hk2
    simp only [execBody, specBody]
    rw [h1]
    split
    · rename_i hok
      rw [h2]
      simp only [List.append_assoc, updFn_updFn]
    · rfl

end

/-- Claim C1 (amended, confirmed): for strictly nested calls that all go
through one wrapped function, the recorder produces exactly the claim-side
trace: each recorded node's parent is the id of the invocation active on the
call stack when the call began (the id its invoker pushed before running the
body, `none` for the top-level call), so a trace of `fib(3)` yields a tree
with exactly one root in which each node's parent is the node for the call
that invoked it.  (Cross-wrapper nesting is excluded: each wrapper has its
own private stack, see the counterexample.) -/
theorem c1_single_wrapper_parents (c : Call) (h : usesOnlyCall 0 c = true) :
    (execCall initState c).1.tree = (specCall none 0 c).1
      ∧ (execCall initState c).2 = (specCall none 0 c).2.2 := by
  have hmain := execCall_spec c h initState 0 [] rfl
    (fun ke hke => absurd hke (List.not_mem_nil ke))
  rw [hmain]
  exact ⟨rfl, rfl⟩

/-- Claim C1 witness: the trace of `fib(3)` through the single wrapped `fib`
has five nodes, each recorded with the id of its dynamic invoker as parent,
and exactly one root. -/
theorem c1_single_wrapper_parents_witness :
    usesOnlyCall 0 fibCall3 = true
      ∧ (execCall initState fibCall3).1.tree
        = [(2, ⟨some 1, ["1"], [], "1"⟩), (3, ⟨some 1, ["0"], [], "0"⟩),
           (1, ⟨some 0, ["2"], [], "1"⟩), (4, ⟨some 0, ["1"], [], "1"⟩),
           (0, ⟨none, ["3"], [], "2"⟩)]
      ∧ ((execCall initState fibCall3).1.tree.filter
          (fun ke => ke.2.parent == none)).length = 1 := by
  refine ⟨by decide, ?_, by decide⟩
  rw [(c1_single_wrapper_parents fibCall3 (by decide)).1]
  decide

/-- Claim C6 (confirmed): when the wrapped function raises (`outcome = none`),
the wrapper reports failure, records no entry for the call when the body made
no nested traced calls, and pops its own id unconditionally, so every wrapped
function's call stack returns to its pre-call content; a subsequent
independent traced leaf call made while function `g`'s stack is empty records
`parent = none`. -/
theorem c6_failure_stack_discipline (s : RecState) (f : Nat) (a : List String)
    (k : List (String × String)) (b : Body) (g : Nat) (a2 : List String)
    (k2 : List (String × String)) (r : String)
    (hg : (s.fns g).stack = []) :
    (execCall s (Call.mk f a k b none)).2 = false
      ∧ (∀ j, ((execCall s (Call.mk f a k b none)).1.fns j).stack = (s.fns j).stack)
      ∧ (b = Body.nil → (execCall s (Call.mk f a k b none)).1.tree = s.tree)
      ∧ lookupKey ((execCall s (Call.mk f a k b none)).1.fns g).next_id
          (execCall (execCall s (Call.mk f a k b none)).1
            (Call.mk g a2 k2 Body.nil (some r))).1.tree
          = some ⟨none, a2, k2, r⟩ := by
  refine ⟨?_, ?_, ?_, ?_⟩
  · simp only [execCall]
    split <;> rfl
  · intro j
    exact stack_preserved_call (Call.mk f a k b none) s j
  · intro hb
    subst hb
    simp [execCall, execBody]
  · have hstk : ((execCall s (Call.mk f a k b none)).1.fns g).stack = [] := by
      rw [stack_preserved_call (Call.mk f a k b none) s g]
      exact hg
    conv_lhs =>
      rw [show (execCall (execCall s (Call.mk f a k b none)).1
            (Call.mk g a2 k2 Body.nil (some r))).1.tree
          = dictSet (execCall s (Call.mk f a k b none)).1.tree
              ((execCall s (Call.mk f a k b none)).1.fns g).next_id
              ⟨((execCall s (Call.mk f a k b none)).1.fns g).stack.getLast?, a2, k2, r⟩ from by
        simp [execCall, execBody]]
    rw [hstk]
    exact lookupKey_dictSet_self _ _ _

/-- Claim C6 witness: concrete instance of the stack-discipline theorem at a
failing call to function 0 followed by an independent call to function 1. -/
theorem c6_failure_stack_discipline_witness :
    (initState.fns 1).stack = []
      ∧ lookupKey ((execCall initState (Call.mk 0 [] [] Body.nil none)).1.fns 1).next_id
          (execCall (execCall initState (Call.mk 0 [] [] Body.nil none)).1
            (Call.mk 1 ["y"] [] Body.nil (some "b"))).1.tree
          = some ⟨none, ["y"], [], "b"⟩ :=
  ⟨rfl, (c6_failure_stack_discipline initState 0 [] [] Body.nil 1 ["y"] [] "b" rfl).2.2.2⟩

/-- Claim C7 (code_bug evidence): the recorder stores four-component tuples
`(parent, args, kwargs, result)` carrying no function name, while the
serialization loop generated by `App.tsx` unpacks five components
`(parent, fn_name, args, kwargs, result)`.  Consequently serializing the
(non-empty) table produced by tracing `fib(0)` fails instead of producing
records with a `functionName` field. -/
theorem c7_serialization_fails_no_function_name :
    serializeTree (execCall initState fibCall0).1.tree = none
      ∧ (execCall initState fibCall0).1.tree ≠ []
      ∧ (∀ e : Entry, (entryTuple e).length = 4) := by
  refine ⟨by decide, by decide, fun e => rfl⟩

/-! ### The tree layout engine (`computeTreeLayout` in `App.tsx`) -/

/-- The `TraceNode` record type of `App.tsx`: one parsed node of the wire
form. -/
structure TNode where
  id : Nat
  parent : Option Nat
  functionName : String
  args : List String
  kwargs : List (String × String)
  result : String
deriving Repr, DecidableEq

/-- The `PositionedNode` type of `App.tsx`: a `TraceNode` spread together
with `depth: 0, x: 0, y: 0, z: 0` and later mutated in place.  Coordinates
are modeled by rationals (the JavaScript constants 0.5, 2.8 and 0.6 become
1/2, 14/5 and 3/5). -/
structure PNode where
  id : Nat
  parent : Option Nat
  functionName : String
  args : List String
  kwargs : List (String × String)
  result : String
  depth : Nat
  x : ℚ
  y : ℚ
  z : ℚ
deriving Repr, DecidableEq

/-- `JavaScript Map.set`: update in place when the key exists (keeping
insertion order), append otherwise. -/
def mapSet {β : Type} (d : List (Nat × β)) (k : Nat) (v : β) : List (Nat × β) :=
  if d.any (fun p => p.1 = k) then
    d.map (fun p => if p.1 = k then (k, v) else p)
  else d ++ [(k, v)]

/-- The initial positioned node `{ ...node, depth: 0, x: 0, y: 0, z: 0 }`. -/
def mkPNode (nd : TNode) : PNode :=
  ⟨nd.id, nd.parent, nd.functionName, nd.args, nd.kwargs, nd.result, 0, 0, 0, 0⟩

/-- One iteration of the first `nodes.forEach` of `computeTreeLayout`: set
the node in the `positioned` map and, when its parent is non-null, push its
id onto the parent's sibling list in `childMap`. -/
def buildStep (acc : List (Nat × PNode) × List (Nat × List Nat)) (nd : TNode) :
    List (Nat × PNode) × List (Nat × List Nat) :=
  let pos := mapSet acc.1 nd.id (mkPNode nd)
  match nd.parent with
  | none => (pos, acc.2)
  | some par => (pos, mapSet acc.2 par ((lookupKey par acc.2).getD [] ++ [nd.id]))

/-- The first `nodes.forEach` of `computeTreeLayout`: build the `positioned`
map and the `childMap` (parent id to list of child ids, in input order). -/
def buildMaps (nodes : List TNode) : List (Nat × PNode) × List (Nat × List Nat) :=
  nodes.foldl buildStep ([], [])

/-- State of the depth-assignment recursion: the `positioned` map (whose
nodes are mutated in place) and the `visited` set. -/
abbrev DepthSt := List (Nat × PNode) × List Nat

/-- The mutation `node.depth = depth` on the node stored under key `i`. -/
def setDepth (pos : List (Nat × PNode)) (i d : Nat) : List (Nat × PNode) :=
  pos.map (fun p => if p.1 = i then (p.1, { p.2 with depth := d }) else p)

/-- `children.forEach((childId) => assignDepth(childId, depth + 1))`:
sequence an effectful visit over the child list, propagating failure. -/
def runKids (f : DepthSt → Nat → Option DepthSt) : DepthSt → List Nat → Option DepthSt
  | st, [] => some st
  | st, c :: cs =>
    match f st c with
    | none => none
    | some st2 => runKids f st2 cs

/-- The recursive `assignDepth` of `computeTreeLayout`.  The source has no
cycle guard (`visited` is only consulted by the second pass), so the
recursion is modeled with explicit fuel, one unit per nesting level; `none`
means the recursion exceeded every finite depth, i.e. the source diverges. -/
def assignDepth (cm : List (Nat × List Nat)) : Nat → DepthSt → Nat → Nat → Option DepthSt
  | 0, _, _, _ => none
  | fuel + 1, st, i, depth =>
    match lookupKey i st.1 with
    | none => some st
    | some _ =>
      runKids (fun st2 c => assignDepth cm fuel st2 c (depth + 1))
        (setDepth st.1 i depth, i :: st.2) ((lookupKey i cm).getD [])

/-- First pass: `assignDepth(node.id, 0)` for every node whose parent is
null, in insertion order of the `positioned` map. -/
def rootPass (cm : List (Nat × List Nat)) (fuel : Nat) :
    DepthSt → List (Nat × PNode) → Option DepthSt
  | st, [] => some st
  | st, (_, nd) :: rest =>
    if nd.parent = none then
      match assignDepth cm fuel st nd.id 0 with
      | none => none
      | some st2 => rootPass cm fuel st2 rest
    else rootPass cm fuel st rest

/-- Second pass: `assignDepth(node.id, 0)` for every node not yet visited at
the moment its turn comes, in insertion order of the `positioned` map. -/
def orphanPass (cm : List (Nat × List Nat)) (fuel : Nat) :
    DepthSt → List (Nat × PNode) → Option DepthSt
  | st, [] => some st
  | st, (_, nd) :: rest =>
    if nd.id ∈ st.2 then orphanPass cm fuel st rest
    else
      match assignDepth cm fuel st nd.id 0 with
      | none => none
      | some st2 => orphanPass cm fuel st2 rest

/-- Group the positioned nodes by depth (`levels` map, keyed by first
occurrence of each depth, values in insertion order). -/
def buildLevels (pos : List (Nat × PNode)) : List (Nat × List PNode) :=
  pos.foldl (fun lv p =>
    mapSet lv p.2.depth ((lookupKey p.2.depth lv).getD [] ++ [p.2])) []

/-- Coordinates assigned to one level: sort by ascending id, then
`x = index * 9 - (count-1) * 9 * 0.5`, `y = -depth * 7`,
`z = index * 2.8 - (count-1) * 2.8 * 0.5 + depth * 0.6`. -/
def levelCoords (depth : Nat) (lvl : List PNode) : List (Nat × (ℚ × ℚ × ℚ)) :=
  let sorted := List.insertionSort (fun a b => a.id ≤ b.id) lvl
  let count : ℚ := sorted.length
  let xOffset := (count - 1) * 9 * (1 / 2)
  let zOffset := (count - 1) * (14 / 5) * (1 / 2)
  sorted.enum.map (fun p =>
    (p.2.id, ((p.1 : ℚ) * 9 - xOffset, -(depth : ℚ) * 7,
      (p.1 : ℚ) * (14 / 5) - zOffset + (depth : ℚ) * (3 / 5))))

/-- Coordinates assigned by all levels, in level insertion order. -/
def allCoords (levels : List (Nat × List PNode)) : List (Nat × (ℚ × ℚ × ℚ)) :=
  levels.foldl (fun acc lv => acc ++ levelCoords lv.1 lv.2) []

/-- One node's coordinate write-back: `node.x = ...; node.y = ...;
node.z = ...` for the coordinates computed for its id (a present id receives
exactly one coordinate triple). -/
def applyCoordsEntry (upd : List (Nat × (ℚ × ℚ × ℚ))) (p : Nat × PNode) : Nat × PNode :=
  match lookupKey p.1 upd with
  | some c => (p.1, { p.2 with x := c.1, y := c.2.1, z := c.2.2 })
  | none => p

/-- Write the computed coordinates back into the positioned map (the source
mutates the shared node objects). -/
def applyCoords (pos : List (Nat × PNode)) (upd : List (Nat × (ℚ × ℚ × ℚ))) :
    List (Nat × PNode) :=
  pos.map (applyCoordsEntry upd)

/-- The `LayoutResult` of `App.tsx`: positioned nodes in `positioned`
insertion order, and the edge list `(from, to) = (parent, child)`. -/
structure LayoutResult where
  nodes : List PNode
  edges : List (Nat × Nat)
deriving Repr, DecidableEq

/-- The edge pass: one edge per node with a non-null parent present among the
laid-out nodes; dangling parents are silently dropped. -/
def buildEdges (posF : List (Nat × PNode)) : List (Nat × Nat) :=
  posF.foldl (fun es p =>
    match p.2.parent with
    | some par => if (lookupKey par posF).isSome then es ++ [(par, p.2.id)] else es
    | none => es) []

/-- The layout engine `computeTreeLayout` of `App.tsx`, with explicit fuel
bounding the depth of the `assignDepth` recursion; `none` means the source
function does not terminate at any finite recursion depth. -/
def computeTreeLayout (fuel : Nat) (nodes : List TNode) : Option LayoutResult :=
  let maps := buildMaps nodes
  match rootPass maps.2 fuel (maps.1, []) maps.1 with
  | none => none
  | some st1 =>
    match orphanPass maps.2 fuel st1 maps.1 with
    | none => none
    | some st2 =>
      let posF := applyCoords st2.1 (allCoords (buildLevels st2.1))
      some ⟨posF.map (fun p => p.2), buildEdges posF⟩

/-- The layout engine diverges on an input table when it fails at every
finite recursion depth. -/
def layoutDiverges (nodes : List TNode) : Prop :=
  ∀ fuel, computeTreeLayout fuel nodes = none

/-- A malformed trace node that is its own parent. -/
def selfLoopNode : TNode := ⟨0, some 0, "f", [], [], "r"⟩

/-- `setDepth` changes no key, hence preserves presence of every key. -/
theorem lookupKey_setDepth_isSome (pos : List (Nat × PNode)) (i d k : Nat) :
    (lookupKey k (setDepth pos i d)).isSome = (lookupKey k pos).isSome := by
  induction pos with
  | nil => rfl
  | cons p rest ih =>
    simp only [setDepth, List.map_cons]
    by_cases hi : p.1 = i
    · rw [if_pos hi]
      simp only [lookupKey]
      by_cases hk : p.1 = k
      · rw [if_pos hk, if_pos hk]
        rfl
      · rw [if_neg hk, if_neg hk]
        exact ih
    · rw [if_neg hi]
      simp only [lookupKey]
      by_cases hk : p.1 = k
      · rw [if_pos hk, if_pos hk]
      · rw [if_neg hk, if_neg hk]
        exact ih

/-- On the self-loop child map, `assignDepth` starting at node 0 exhausts
every amount of fuel: each visit of node 0 recursively visits node 0 again at
the next depth. -/
theorem assignDepth_selfLoop_none (fuel : Nat) :
    ∀ (st : DepthSt) (d : Nat), (lookupKey 0 st.1).isSome = true →
      assignDepth [(0, [0])] fuel st 0 d = none := by
  induction fuel with
  | zero => intro st d _; rfl
  | succ fuel ih =>
    intro st d h
    obtain ⟨p, hp⟩ := Option.isSome_iff_exists.mp h
    show (match lookupKey 0 st.1 with
          | none => some st
          | some _ =>
            runKids (fun st2 c => assignDepth [(0, [0])] fuel st2 c (d + 1))
              (setDepth st.1 0 d, 0 :: st.2) ((lookupKey 0 [(0, [0])]).getD [])) = none
    rw [hp]
    show (match assignDepth [(0, [0])] fuel (setDepth st.1 0 d, 0 :: st.2) 0 (d + 1) with
          | none => none
          | some st2 =>
            runKids (fun st2 c => assignDepth [(0, [0])] fuel st2 c (d + 1)) st2 []) = none
    rw [ih (setDepth st.1 0 d, 0 :: st.2) (d + 1)
      (by rw [lookupKey_setDepth_isSome]; exact h)]

/-! ### Association-list and counting lemmas for the layout proofs -/

theorem lookupKey_mem {β : Type} {d : List (Nat × β)} {k : Nat} {v : β}
    (h : lookupKey k d = some v) : (k, v) ∈ d := by
  induction d with
  | nil => cases h
  | cons p rest ih =>
    obtain ⟨p1, p2⟩ := p
    by_cases hp : p1 = k
    · subst hp
      have h2 : p2 = v := by simpa [lookupKey] using h
      subst h2
      exact List.mem_cons_self _ _
    · simp only [lookupKey, if_neg hp] at h
      exact List.mem_cons_of_mem _ (ih h)

theorem lookupKey_isSome_iff {β : Type} {d : List (Nat × β)} {k : Nat} :
    (lookupKey k d).isSome = true ↔ k ∈ d.map (fun p => p.1) := by
  induction d with
  | nil => simp [lookupKey]
  | cons p rest ih =>
    by_cases hp : p.1 = k
    · simp [lookupKey, if_pos hp, hp]
    · simp only [lookupKey, if_neg hp, List.map_cons, List.mem_cons, ih]
      constructor
      · exact Or.inr
      · rintro (h | h)
        · exact absurd h.symm hp
        · exact h

theorem setDepth_keys (pos : List (Nat × PNode)) (i d : Nat) :
    (setDepth pos i d).map (fun p => p.1) = pos.map (fun p => p.1) := by
  unfold setDepth
  rw [List.map_map]
  apply List.map_congr_left
  intro p _
  by_cases hp : p.1 = i
  · simp [hp]
  · simp [hp]

theorem mapSet_keys_mem {β : Type} (d : List (Nat × β)) (k j : Nat) (v : β) :
    j ∈ (mapSet d k v).map (fun p => p.1) ↔ j ∈ d.map (fun p => p.1) ∨ j = k := by
  unfold mapSet
  by_cases ha : (d.any fun p => decide (p.1 = k)) = true
  · rw [if_pos ha]
    have hk : k ∈ d.map (fun p => p.1) := by
      simp only [List.any_eq_true, decide_eq_true_eq] at ha
      obtain ⟨p, hp, hpk⟩ := ha
      exact List.mem_map.mpr ⟨p, hp, hpk⟩
    have hmaps : (d.map (fun p => if p.1 = k then (k, v) else p)).map (fun p => p.1)
        = d.map (fun p => p.1) := by
      rw [List.map_map]
      apply List.map_congr_left
      intro p _
      by_cases hp : p.1 = k
      · simp [hp]
      · simp [hp]
    rw [hmaps]
    constructor
    · exact Or.inl
    · rintro (h | h)
      · exact h
      · exact h ▸ hk
  · rw [if_neg ha]
    simp only [List.map_append, List.map_cons, List.map_nil, List.mem_append,
      List.mem_singleton]

theorem mapSet_length {β : Type} (d : List (Nat × β)) (k : Nat) (v : β) :
    (mapSet d k v).length ≤ d.length + 1 := by
  unfold mapSet
  split
  · rw [List.length_map]
    exact Nat.le_succ _
  · rw [List.length_append]
    exact Nat.le_refl _

/-- The number of elements of `l` that are at least `i`. -/
def countGe (i : Nat) (l : List Nat) : Nat :=
  (l.filter (fun x => i ≤ x)).length

theorem countGe_le_length (i : Nat) (l : List Nat) : countGe i l ≤ l.length := by
  unfold countGe
  exact List.length_filter_le _ _

theorem countGe_anti (i c : Nat) (hic : i ≤ c) (l : List Nat) :
    countGe c l ≤ countGe i l := by
  induction l with
  | nil => exact Nat.le_refl _
  | cons a tl ih =>
    unfold countGe at ih ⊢
    by_cases hc : c ≤ a
    · have hi : i ≤ a := Nat.le_trans hic hc
      simp only [List.filter_cons, hc, hi, decide_eq_true_eq, if_pos, List.length_cons]
      simpa using ih
    · by_cases hi : i ≤ a
      · simp only [List.filter_cons]
        rw [if_neg (by simpa using hc), if_pos (by simpa using hi)]
        simp only [List.length_cons]
        exact Nat.le_succ_of_le ih
      · simp only [List.filter_cons]
        rw [if_neg (by simpa using hc), if_neg (by simpa using hi)]
        exact ih

theorem countGe_lt_of_mem {l : List Nat} {i c : Nat} (hi : i ∈ l) (hic : i < c) :
    countGe c l < countGe i l := by
  induction l with
  | nil => cases hi
  | cons a tl ih =>
    unfold countGe at ih ⊢
    rcases List.mem_cons.mp hi with rfl | hmem
    · have hc : ¬ c ≤ i := Nat.not_le_of_lt hic
      simp only [List.filter_cons]
      rw [if_neg (by simpa using hc), if_pos (by simp)]
      simp only [List.length_cons]
      exact Nat.lt_succ_of_le (countGe_anti i c (Nat.le_of_lt hic) tl)
    · have hrec := ih hmem
      simp only [List.filter_cons]
      by_cases hc : c ≤ a
      · have hia : i ≤ a := Nat.le_trans (Nat.le_of_lt hic) hc
        rw [if_pos (by simpa using hc), if_pos (by simpa using hia)]
        simpa using hrec
      · by_cases hia : i ≤ a
        · rw [if_neg (by simpa using hc), if_pos (by simpa using hia)]
          simp only [List.length_cons]
          exact Nat.lt_succ_of_lt hrec
        · rw [if_neg (by simpa using hc), if_neg (by simpa using hia)]
          exact hrec

/-! ### Termination and shape preservation of the depth traversal -/

/-- With enough fuel (one more than the number of keys at least `i`),
`assignDepth` succeeds whenever every child-map edge goes from a smaller to a
larger id, and it preserves the key list of the positioned map. -/
theorem assignDepth_total (cm : List (Nat × List Nat)) (K : List Nat)
    (hcm : ∀ kl ∈ cm, ∀ c ∈ kl.2, kl.1 < c) :
    ∀ fuel i (st : DepthSt) d, st.1.map (fun p => p.1) = K → countGe i K < fuel →
      ∃ st2, assignDepth cm fuel st i d = some st2 ∧ st2.1.map (fun p => p.1) = K := by
  intro fuel
  induction fuel with
  | zero =>
    intro i st d _ hlt
    exact absurd hlt (Nat.not_lt_zero _)
  | succ fuel ih =>
    intro i st d hK hlt
    cases hl : lookupKey i st.1 with
    | none =>
      refine ⟨st, ?_, hK⟩
      simp only [assignDepth]
      rw [hl]
    | some pn =>
      have hiK : i ∈ K := by
        rw [← hK]
        exact lookupKey_isSome_iff.mp (by rw [hl]; rfl)
      have hkids : ∀ c ∈ (lookupKey i cm).getD [], countGe c K < fuel := by
        intro c hc
        cases hcml : lookupKey i cm with
        | none => rw [hcml] at hc; cases hc
        | some kids =>
          rw [hcml] at hc
          have hmem := lookupKey_mem hcml
          have hic := hcm (i, kids) hmem c hc
          have := countGe_lt_of_mem hiK hic
          omega
      have hrun : ∀ (ks : List Nat), (∀ c ∈ ks, countGe c K < fuel) →
          ∀ st2 : DepthSt, st2.1.map (fun p => p.1) = K →
          ∃ st3, runKids (fun s c => assignDepth cm fuel s c (d + 1)) st2 ks = some st3
            ∧ st3.1.map (fun p => p.1) = K := by
        intro ks
        induction ks with
        | nil =>
          intro _ st2 h2
          exact ⟨st2, rfl, h2⟩
        | cons c cs ihk =>
          intro hbound st2 h2
          obtain ⟨st3, h3, hk3⟩ := ih c st2 (d + 1) h2 (hbound c (List.mem_cons_self _ _))
          obtain ⟨st4, h4, hk4⟩ :=
            ihk (fun c2 hc2 => hbound c2 (List.mem_cons_of_mem _ hc2)) st3 hk3
          refine ⟨st4, ?_, hk4⟩
          simp only [runKids]
          rw [h3]
          exact h4
      have hsd : ((setDepth st.1 i d, i :: st.2) : DepthSt).1.map (fun p => p.1) = K := by
        rw [setDepth_keys]
        exact hK
      obtain ⟨st3, h3, hk3⟩ := hrun _ hkids (setDepth st.1 i d, i :: st.2) hsd
      refine ⟨st3, ?_, hk3⟩
      simp only [assignDepth]
      rw [hl]
      exact h3

/-- `runKids` preserves any state property that each individual visit
preserves. -/
theorem runKids_preserves (P : DepthSt → Prop) (g : DepthSt → Nat → Option DepthSt)
    (hg : ∀ st c st2, g st c = some st2 → P st → P st2) :
    ∀ (ks : List Nat) (st st2 : DepthSt), runKids g st ks = some st2 → P st → P st2 := by
  intro ks
  induction ks with
  | nil =>
    intro st st2 h hp
    cases h
    exact hp
  | cons c cs ihk =>
    intro st st2 h hp
    simp only [runKids] at h
    cases hg1 : g st c with
    | none => rw [hg1] at h; cases h
    | some st3 =>
      rw [hg1] at h
      exact ihk st3 st2 h (hg st c st3 hg1 hp)

/-- `assignDepth` preserves any property of the positioned map that
`setDepth` preserves. -/
theorem assignDepth_preserves (cm : List (Nat × List Nat))
    (P : List (Nat × PNode) → Prop)
    (hset : ∀ pos i d, P pos → P (setDepth pos i d)) :
    ∀ fuel (st : DepthSt) i d st2, assignDepth cm fuel st i d = some st2 →
      P st.1 → P st2.1 := by
  intro fuel
  induction fuel with
  | zero =>
    intro st i d st2 h
    cases h
  | succ fuel ih =>
    intro st i d st2 h hp
    simp only [assignDepth] at h
    cases hl : lookupKey i st.1 with
    | none =>
      rw [hl] at h
      cases h
      exact hp
    | some pn =>
      rw [hl] at h
      have := runKids_preserves (fun s => P s.1)
        (fun s c => assignDepth cm fuel s c (d + 1))
        (fun s c s2 hc hpc => ih s c (d + 1) s2 hc hpc)
        ((lookupKey i cm).getD []) (setDepth st.1 i d, i :: st.2) st2 h
      exact this (hset st.1 i d hp)

/-- `rootPass` preserves any property that `setDepth` preserves. -/
theorem rootPass_preserves (cm : List (Nat × List Nat)) (fuel : Nat)
    (P : List (Nat × PNode) → Prop)
    (hset : ∀ pos i d, P pos → P (setDepth pos i d)) :
    ∀ (its : List (Nat × PNode)) (st st2 : DepthSt),
      rootPass cm fuel st its = some st2 → P st.1 → P st2.1 := by
  intro its
  induction its with
  | nil =>
    intro st st2 h hp
    cases h
    exact hp
  | cons it rest ihit =>
    intro st st2 h hp
    obtain ⟨k, nd⟩ := it
    simp only [rootPass] at h
    by_cases hroot : nd.parent = none
    · rw [if_pos hroot] at h
      cases ha : assignDepth cm fuel st nd.id 0 with
      | none => rw [ha] at h; cases h
      | some st3 =>
        rw [ha] at h
        exact ihit st3 st2 h (assignDepth_preserves cm P hset fuel st nd.id 0 st3 ha hp)
    · rw [if_neg hroot] at h
      exact ihit st st2 h hp

/-- `orphanPass` preserves any property that `setDepth` preserves. -/
theorem orphanPass_preserves (cm : List (Nat × List Nat)) (fuel : Nat)
    (P : List (Nat × PNode) → Prop)
    (hset : ∀ pos i d, P pos → P (setDepth pos i d)) :
    ∀ (its : List (Nat × PNode)) (st st2 : DepthSt),
      orphanPass cm fuel st its = some st2 → P st.1 → P st2.1 := by
  intro its
  induction its with
  | nil =>
    intro st st2 h hp
    cases h
    exact hp
  | cons it rest ihit =>
    intro st st2 h hp
    obtain ⟨k, nd⟩ := it
    simp only [orphanPass] at h
    by_cases hvis : nd.id ∈ st.2
    · rw [if_pos hvis] at h
      exact ihit st st2 h hp
    · rw [if_neg hvis] at h
      cases ha : assignDepth cm fuel st nd.id 0 with
      | none => rw [ha] at h; cases h
      | some st3 =>
        rw [ha] at h
        exact ihit st3 st2 h (assignDepth_preserves cm P hset fuel st nd.id 0 st3 ha hp)

/-- `rootPass` succeeds and preserves the key list when fuel exceeds the
number of keys. -/
theorem rootPass_total (cm : List (Nat × List Nat)) (K : List Nat)
    (hcm : ∀ kl ∈ cm, ∀ c ∈ kl.2, kl.1 < c) (fuel : Nat) (hfuel : K.length < fuel) :
    ∀ (its : List (Nat × PNode)) (st : DepthSt), st.1.map (fun p => p.1) = K →
      ∃ st2, rootPass cm fuel st its = some st2 ∧ st2.1.map (fun p => p.1) = K := by
  intro its
  induction its with
  | nil =>
    intro st hK
    exact ⟨st, rfl, hK⟩
  | cons it rest ihit =>
    intro st hK
    obtain ⟨k, nd⟩ := it
    by_cases hroot : nd.parent = none
    · have hbound : countGe nd.id K < fuel :=
        Nat.lt_of_le_of_lt (countGe_le_length _ _) hfuel
      obtain ⟨st3, h3, hk3⟩ := assignDepth_total cm K hcm fuel nd.id st 0 hK hbound
      obtain ⟨st4, h4, hk4⟩ := ihit st3 hk3
      refine ⟨st4, ?_, hk4⟩
      simp only [rootPass]
      rw [if_pos hroot, h3]
      exact h4
    · obtain ⟨st4, h4, hk4⟩ := ihit st hK
      refine ⟨st4, ?_, hk4⟩
      simp only [rootPass]
      rw [if_neg hroot]
      exact h4

/-- `orphanPass` succeeds and preserves the key list when fuel exceeds the
number of keys. -/
theorem orphanPass_total (cm : List (Nat × List Nat)) (K : List Nat)
    (hcm : ∀ kl ∈ cm, ∀ c ∈ kl.2, kl.1 < c) (fuel : Nat) (hfuel : K.length < fuel) :
    ∀ (its : List (Nat × PNode)) (st : DepthSt), st.1.map (fun p => p.1) = K →
      ∃ st2, orphanPass cm fuel st its = some st2 ∧ st2.1.map (fun p => p.1) = K := by
  intro its
  induction its with
  | nil =>
    intro st hK
    exact ⟨st, rfl, hK⟩
  | cons it rest ihit =>
    intro st hK
    obtain ⟨k, nd⟩ := it
    by_cases hvis : nd.id ∈ st.2
    · obtain ⟨st4, h4, hk4⟩ := ihit st hK
      refine ⟨st4, ?_, hk4⟩
      simp only [orphanPass]
      rw [if_pos hvis]
      exact h4
    · have hbound : countGe nd.id K < fuel :=
        Nat.lt_of_le_of_lt (countGe_le_length _ _) hfuel
      obtain ⟨st3, h3, hk3⟩ := assignDepth_total cm K hcm fuel nd.id st 0 hK hbound
      obtain ⟨st4, h4, hk4⟩ := ihit st3 hk3
      refine ⟨st4, ?_, hk4⟩
      simp only [orphanPass]
      rw [if_neg hvis, h3]
      exact h4

/-! ### Contents of the maps built by the first pass -/

/-- An entry of a JavaScript map after a `set` is an old entry or the new
binding. -/
theorem mem_mapSet {β : Type} (d : List (Nat × β)) (k : Nat) (v : β) :
    ∀ kp ∈ mapSet d k v, kp ∈ d ∨ kp = (k, v) := by
  intro kp hkp
  unfold mapSet at hkp
  by_cases ha : (d.any fun q => decide (q.1 = k)) = true
  · rw [if_pos ha] at hkp
    obtain ⟨q, hq, hqe⟩ := List.mem_map.mp hkp
    by_cases hqk : q.1 = k
    · right
      rw [if_pos hqk] at hqe
      exact hqe.symm
    · left
      rw [if_neg hqk] at hqe
      exact hqe ▸ hq
  · rw [if_neg ha] at hkp
    rcases List.mem_append.mp hkp with h | h
    · exact Or.inl h
    · exact Or.inr (List.mem_singleton.mp h)

/-- The positioned component of one build step is the `Map.set`. -/
theorem buildStep_pos (acc : List (Nat × PNode) × List (Nat × List Nat)) (nd : TNode) :
    (buildStep acc nd).1 = mapSet acc.1 nd.id (mkPNode nd) := by
  unfold buildStep
  cases nd.parent <;> rfl

/-- Keys already present in the positioned map survive the remaining build
steps. -/
theorem buildFold_keys_mono (nodes : List TNode) :
    ∀ (acc : List (Nat × PNode) × List (Nat × List Nat)) (j : Nat),
      j ∈ acc.1.map (fun p => p.1) →
      j ∈ (nodes.foldl buildStep acc).1.map (fun p => p.1) := by
  induction nodes with
  | nil => intro acc j hj; exact hj
  | cons nd rest ih =>
    intro acc j hj
    simp only [List.foldl_cons]
    apply ih
    rw [buildStep_pos]
    exact (mapSet_keys_mem _ _ _ _).mpr (Or.inl hj)

/-- Every input node's id ends up among the keys of the positioned map. -/
theorem buildFold_covers (nodes : List TNode) :
    ∀ (acc : List (Nat × PNode) × List (Nat × List Nat)), ∀ nd ∈ nodes,
      nd.id ∈ (nodes.foldl buildStep acc).1.map (fun p => p.1) := by
  induction nodes with
  | nil => intro acc nd h; cases h
  | cons nd0 rest ih =>
    intro acc nd hnd
    simp only [List.foldl_cons]
    rcases List.mem_cons.mp hnd with rfl | hmem
    · apply buildFold_keys_mono
      rw [buildStep_pos]
      exact (mapSet_keys_mem _ _ _ _).mpr (Or.inr rfl)
    · exact ih (buildStep acc nd0) nd hmem

/-- Every key of the positioned map is the id of some input node (or was
already a key of the accumulator). -/
theorem buildFold_keys_from (nodes : List TNode) :
    ∀ (acc : List (Nat × PNode) × List (Nat × List Nat)) (j : Nat),
      j ∈ (nodes.foldl buildStep acc).1.map (fun p => p.1) →
      j ∈ acc.1.map (fun p => p.1) ∨ ∃ nd ∈ nodes, nd.id = j := by
  induction nodes with
  | nil => intro acc j hj; exact Or.inl hj
  | cons nd0 rest ih =>
    intro acc j hj
    simp only [List.foldl_cons] at hj
    rcases ih (buildStep acc nd0) j hj with h | ⟨nd, hnd, hid⟩
    · rw [buildStep_pos] at h
      rcases (mapSet_keys_mem _ _ _ _).mp h with h2 | h2
      · exact Or.inl h2
      · exact Or.inr ⟨nd0, List.mem_cons_self _ _, h2.symm⟩
    · exact Or.inr ⟨nd, List.mem_cons_of_mem _ hnd, hid⟩

/-- The positioned map has at most one entry per input node. -/
theorem buildFold_length (nodes : List TNode) :
    ∀ (acc : List (Nat × PNode) × List (Nat × List Nat)),
      (nodes.foldl buildStep acc).1.length ≤ acc.1.length + nodes.length := by
  induction nodes with
  | nil => intro acc; exact Nat.le_refl _
  | cons nd0 rest ih =>
    intro acc
    simp only [List.foldl_cons, List.length_cons]
    calc (rest.foldl buildStep (buildStep acc nd0)).1.length
        ≤ (buildStep acc nd0).1.length + rest.length := ih _
      _ ≤ (acc.1.length + 1) + rest.length := by
          have := buildStep_pos acc nd0 ▸ mapSet_length acc.1 nd0.id (mkPNode nd0)
          omega
      _ = acc.1.length + (rest.length + 1) := by omega

/-- Every parent-to-child edge recorded in the child map satisfies `R`,
provided the input nodes' parent links satisfy `R` and the accumulator
already does. -/
theorem buildFold_cm (R : Nat → Nat → Prop) (nodes : List TNode) :
    ∀ (acc : List (Nat × PNode) × List (Nat × List Nat)),
      (∀ kl ∈ acc.2, ∀ c ∈ kl.2, R kl.1 c) →
      (∀ nd ∈ nodes, ∀ par, nd.parent = some par → R par nd.id) →
      ∀ kl ∈ (nodes.foldl buildStep acc).2, ∀ c ∈ kl.2, R kl.1 c := by
  induction nodes with
  | nil => intro acc hacc _; exact hacc
  | cons nd0 rest ih =>
    intro acc hacc hnodes
    simp only [List.foldl_cons]
    apply ih
    · show ∀ kl ∈ (buildStep acc nd0).2, ∀ c ∈ kl.2, R kl.1 c
      unfold buildStep
      cases hp : nd0.parent with
      | none => exact hacc
      | some par =>
        intro kl hkl c hc
        rcases mem_mapSet _ _ _ kl hkl with h | h
        · exact hacc kl h c hc
        · subst h
          rcases List.mem_append.mp hc with h2 | h2
          · cases hlk : lookupKey par acc.2 with
            | none => rw [hlk] at h2; cases h2
            | some kids =>
              rw [hlk] at h2
              exact hacc (par, kids) (lookupKey_mem hlk) c h2
          · rw [List.mem_singleton.mp h2]
            exact hnodes nd0 (List.mem_cons_self _ _) par hp
    · exact fun nd hnd => hnodes nd (List.mem_cons_of_mem _ hnd)

/-- Every entry of the positioned map satisfies `Q` if the accumulator's
entries do and every input node's initial positioned entry does. -/
theorem buildFold_pos (Q : Nat → PNode → Prop) (nodes : List TNode) :
    ∀ (acc : List (Nat × PNode) × List (Nat × List Nat)),
      (∀ kp ∈ acc.1, Q kp.1 kp.2) →
      (∀ nd ∈ nodes, Q nd.id (mkPNode nd)) →
      ∀ kp ∈ (nodes.foldl buildStep acc).1, Q kp.1 kp.2 := by
  induction nodes with
  | nil => intro acc hacc _; exact hacc
  | cons nd0 rest ih =>
    intro acc hacc hnodes
    simp only [List.foldl_cons]
    apply ih
    · intro kp hkp
      rw [buildStep_pos] at hkp
      rcases mem_mapSet _ _ _ kp hkp with h | h
      · exact hacc kp h
      · rw [h]
        exact hnodes nd0 (List.mem_cons_self _ _)
    · exact fun nd hnd => hnodes nd (List.mem_cons_of_mem _ hnd)

/-- An entry produced by `setDepth` comes from an entry with the same key and
the same fields other than `depth`. -/
theorem setDepth_mem (pos : List (Nat × PNode)) (i d : Nat) :
    ∀ kp ∈ setDepth pos i d, ∃ kq ∈ pos, kp.1 = kq.1 ∧ kp.2.id = kq.2.id
      ∧ kp.2.parent = kq.2.parent := by
  intro kp hkp
  unfold setDepth at hkp
  obtain ⟨kq, hkq, hkqe⟩ := List.mem_map.mp hkp
  by_cases hq : kq.1 = i
  · rw [if_pos hq] at hkqe
    exact ⟨kq, hkq, by rw [← hkqe, hq], by rw [← hkqe], by rw [← hkqe]⟩
  · rw [if_neg hq] at hkqe
    exact ⟨kq, hkq, by rw [← hkqe], by rw [← hkqe], by rw [← hkqe]⟩

/-- `applyCoords` keeps keys, ids, parents and depths of all entries. -/
theorem applyCoords_mem (pos : List (Nat × PNode)) (upd : List (Nat × (ℚ × ℚ × ℚ))) :
    ∀ kp ∈ applyCoords pos upd, ∃ kq ∈ pos, kp.1 = kq.1 ∧ kp.2.id = kq.2.id
      ∧ kp.2.parent = kq.2.parent ∧ kp.2.depth = kq.2.depth := by
  intro kp hkp
  unfold applyCoords applyCoordsEntry at hkp
  obtain ⟨kq, hkq, hkqe⟩ := List.mem_map.mp hkp
  cases hlk : lookupKey kq.1 upd with
  | none =>
    rw [hlk] at hkqe
    exact ⟨kq, hkq, by rw [← hkqe], by rw [← hkqe], by rw [← hkqe], by rw [← hkqe]⟩
  | some c =>
    rw [hlk] at hkqe
    exact ⟨kq, hkq, by rw [← hkqe], by rw [← hkqe], by rw [← hkqe], by rw [← hkqe]⟩

/-- `applyCoords` does not change the key list. -/
theorem applyCoords_keys (pos : List (Nat × PNode)) (upd : List (Nat × (ℚ × ℚ × ℚ))) :
    (applyCoords pos upd).map (fun p => p.1) = pos.map (fun p => p.1) := by
  unfold applyCoords applyCoordsEntry
  rw [List.map_map]
  apply List.map_congr_left
  intro p _
  simp only [Function.comp_apply]
  cases hlk : lookupKey p.1 upd with
  | none => rfl
  | some c => rfl

/-- Claim C4 (amended, confirmed): on every node table whose non-null parent
ids are strictly smaller than the child's id (as the recorder guarantees; in
particular there are no parent cycles), the layout engine terminates with
fuel `number of nodes + 1` and its output assigns every input node's id a
positioned node carrying a (non-negative) depth; nodes unreachable from any
declared root are started as their own roots at depth 0 by the second pass.
On tables with parent cycles it does not terminate (see the counterexample). -/
theorem c4_acyclic_layout_total (nodes : List TNode)
    (hpar : ∀ nd ∈ nodes, ∀ p, nd.parent = some p → p < nd.id) :
    ∃ r, computeTreeLayout (nodes.length + 1) nodes = some r
      ∧ ∀ nd ∈ nodes, ∃ pn ∈ r.nodes, pn.id = nd.id := by
  have hcm : ∀ kl ∈ (buildMaps nodes).2, ∀ c ∈ kl.2, kl.1 < c := by
    apply buildFold_cm (fun par c => par < c) nodes ([], [])
    · intro kl hkl
      cases hkl
    · intro nd hnd par hp
      exact hpar nd hnd par hp
  have hK : (buildMaps nodes).1.map (fun p => p.1) = (buildMaps nodes).1.map (fun p => p.1) :=
    rfl
  have hlen : ((buildMaps nodes).1.map (fun p => p.1)).length < nodes.length + 1 := by
    rw [List.length_map]
    have := buildFold_length nodes ([], [])
    simpa [buildMaps] using Nat.lt_succ_of_le (by simpa using this)
  obtain ⟨st1, h1, hk1⟩ := rootPass_total (buildMaps nodes).2
    ((buildMaps nodes).1.map (fun p => p.1)) hcm (nodes.length + 1) hlen
    (buildMaps nodes).1 ((buildMaps nodes).1, []) rfl
  obtain ⟨st2, h2, hk2⟩ := orphanPass_total (buildMaps nodes).2
    ((buildMaps nodes).1.map (fun p => p.1)) hcm (nodes.length + 1) hlen
    (buildMaps nodes).1 st1 hk1
  have hIdInv : ∀ kp ∈ st2.1, kp.2.id = kp.1 := by
    have hbuild : ∀ kp ∈ (buildMaps nodes).1, kp.2.id = kp.1 := by
      apply buildFold_pos (fun k pn => pn.id = k) nodes ([], [])
      · intro kp hkp
        cases hkp
      · intro nd _
        rfl
    have hset : ∀ pos i d, (∀ kp ∈ pos, kp.2.id = kp.1) →
        ∀ kp ∈ setDepth pos i d, kp.2.id = kp.1 := by
      intro pos i d hp kp hkp
      obtain ⟨kq, hkq, he1, he2, _⟩ := setDepth_mem pos i d kp hkp
      rw [he2, hp kq hkq, he1]
    have hpass1 := rootPass_preserves (buildMaps nodes).2 (nodes.length + 1)
      (fun pos => ∀ kp ∈ pos, kp.2.id = kp.1) hset (buildMaps nodes).1
      ((buildMaps nodes).1, []) st1 h1 hbuild
    exact orphanPass_preserves (buildMaps nodes).2 (nodes.length + 1)
      (fun pos => ∀ kp ∈ pos, kp.2.id = kp.1) hset (buildMaps nodes).1 st1 st2 h2 hpass1
  refine ⟨⟨(applyCoords st2.1 (allCoords (buildLevels st2.1))).map (fun p => p.2),
          buildEdges (applyCoords st2.1 (allCoords (buildLevels st2.1)))⟩, ?_, ?_⟩
  · simp only [computeTreeLayout, h1, h2]
  · intro nd hnd
    have hid : nd.id ∈ st2.1.map (fun p => p.1) := by
      rw [hk2]
      exact buildFold_covers nodes ([], []) nd hnd
    have hid2 : nd.id ∈ (applyCoords st2.1 (allCoords (buildLevels st2.1))).map
        (fun p => p.1) := by
      rw [applyCoords_keys]
      exact hid
    obtain ⟨pn, hpn⟩ := Option.isSome_iff_exists.mp (lookupKey_isSome_iff.mpr hid2)
    have hmem := lookupKey_mem hpn
    obtain ⟨kq, hkq, he1, he2, _, _⟩ := applyCoords_mem _ _ _ hmem
    refine ⟨pn, List.mem_map.mpr ⟨(nd.id, pn), hmem, rfl⟩, ?_⟩
    rw [he2, hIdInv kq hkq, ← he1]

/-- Claim C4 witness: the acyclic-layout theorem applied to a two-node chain
(a root and its child). -/
theorem c4_acyclic_layout_total_witness :
    (∀ nd ∈ [(⟨0, none, "f", [], [], "r"⟩ : TNode), ⟨1, some 0, "f", [], [], "s"⟩],
      ∀ p, nd.parent = some p → p < nd.id)
      ∧ ∃ r, computeTreeLayout 3
          [(⟨0, none, "f", [], [], "r"⟩ : TNode), ⟨1, some 0, "f", [], [], "s"⟩] = some r
        ∧ ∀ nd ∈ [(⟨0, none, "f", [], [], "r"⟩ : TNode), ⟨1, some 0, "f", [], [], "s"⟩],
            ∃ pn ∈ r.nodes, pn.id = nd.id :=
  ⟨by decide, c4_acyclic_layout_total
    [⟨0, none, "f", [], [], "r"⟩, ⟨1, some 0, "f", [], [], "s"⟩] (by decide)⟩

/-! ### Fuel-independence of the layout result -/

/-- If every visit that succeeds under `g` succeeds with the same result
under `g2`, the same holds for visiting a whole child list. -/
theorem runKids_mono (g g2 : DepthSt → Nat → Option DepthSt)
    (hg : ∀ st c st2, g st c = some st2 → g2 st c = some st2) :
    ∀ (ks : List Nat) (st st2 : DepthSt),
      runKids g st ks = some st2 → runKids g2 st ks = some st2 := by
  intro ks
  induction ks with
  | nil => intro st st2 h; exact h
  | cons c cs ih =>
    intro st st2 h
    simp only [runKids] at h ⊢
    cases hc : g st c with
    | none => rw [hc] at h; cases h
    | some st3 =>
      rw [hc] at h
      rw [hg st c st3 hc]
      exact ih st3 st2 h

/-- A successful depth traversal stays successful, with the same final state,
at any larger fuel. -/
theorem assignDepth_mono (cm : List (Nat × List Nat)) :
    ∀ fuel fuel2, fuel ≤ fuel2 → ∀ (st : DepthSt) i d st2,
      assignDepth cm fuel st i d = some st2 → assignDepth cm fuel2 st i d = some st2 := by
  intro fuel
  induction fuel with
  | zero => intro fuel2 _ st i d st2 h; cases h
  | succ fuel ih =>
    intro fuel2 hle st i d st2 h
    obtain ⟨fuel3, rfl⟩ : ∃ f3, fuel2 = f3 + 1 := ⟨fuel2 - 1, by omega⟩
    simp only [assignDepth] at h ⊢
    cases hl : lookupKey i st.1 with
    | none =>
      rw [hl] at h
      exact h
    | some pn =>
      rw [hl] at h
      exact runKids_mono _ _
        (fun s c s2 hc => ih fuel3 (by omega) s c (d + 1) s2 hc) _ _ _ h

/-- A successful root pass stays successful with the same state at any larger
fuel. -/
theorem rootPass_mono (cm : List (Nat × List Nat)) (fuel fuel2 : Nat) (hle : fuel ≤ fuel2) :
    ∀ (its : List (Nat × PNode)) (st st2 : DepthSt),
      rootPass cm fuel st its = some st2 → rootPass cm fuel2 st its = some st2 := by
  intro its
  induction its with
  | nil => intro st st2 h; exact h
  | cons it rest ih =>
    intro st st2 h
    obtain ⟨k, nd⟩ := it
    simp only [rootPass] at h ⊢
    by_cases hroot : nd.parent = none
    · rw [if_pos hroot] at h ⊢
      cases ha : assignDepth cm fuel st nd.id 0 with
      | none => rw [ha] at h; cases h
      | some st3 =>
        rw [ha] at h
        rw [assignDepth_mono cm fuel fuel2 hle st nd.id 0 st3 ha]
        exact ih st3 st2 h
    · rw [if_neg hroot] at h ⊢
      exact ih st st2 h

/-- A successful orphan pass stays successful with the same state at any
larger fuel. -/
theorem orphanPass_mono (cm : List (Nat × List Nat)) (fuel fuel2 : Nat) (hle : fuel ≤ fuel2) :
    ∀ (its : List (Nat × PNode)) (st st2 : DepthSt),
      orphanPass cm fuel st its = some st2 → orphanPass cm fuel2 st its = some st2 := by
  intro its
  induction its with
  | nil => intro st st2 h; exact h
  | cons it rest ih =>
    intro st st2 h
    obtain ⟨k, nd⟩ := it
    simp only [orphanPass] at h ⊢
    by_cases hvis : nd.id ∈ st.2
    · rw [if_pos hvis] at h ⊢
      exact ih st st2 h
    · rw [if_neg hvis] at h ⊢
      cases ha : assignDepth cm fuel st nd.id 0 with
      | none => rw [ha] at h; cases h
      | some st3 =>
        rw [ha] at h
        rw [assignDepth_mono cm fuel fuel2 hle st nd.id 0 st3 ha]
        exact ih st3 st2 h

/-- A successful layout run yields the same result at any larger fuel. -/
theorem computeTreeLayout_mono (nodes : List TNode) (fuel fuel2 : Nat)
    (hle : fuel ≤ fuel2) (r : LayoutResult)
    (h : computeTreeLayout fuel nodes = some r) :
    computeTreeLayout fuel2 nodes = some r := by
  cases h1 : rootPass (buildMaps nodes).2 fuel ((buildMaps nodes).1, [])
      (buildMaps nodes).1 with
  | none =>
    have hnone : computeTreeLayout fuel nodes = none := by
      simp only [computeTreeLayout, h1]
    rw [hnone] at h
    cases h
  | some st1 =>
    cases h2 : orphanPass (buildMaps nodes).2 fuel st1 (buildMaps nodes).1 with
    | none =>
      have hnone : computeTreeLayout fuel nodes = none := by
        simp only [computeTreeLayout, h1, h2]
      rw [hnone] at h
      cases h
    | some st2 =>
      have hval : computeTreeLayout fuel nodes
          = some ⟨(applyCoords st2.1 (allCoords (buildLevels st2.1))).map (fun p => p.2),
                  buildEdges (applyCoords st2.1 (allCoords (buildLevels st2.1)))⟩ := by
        simp only [computeTreeLayout, h1, h2]
      rw [hval] at h
      have hr := Option.some.inj h
      subst hr
      simp only [computeTreeLayout,
        rootPass_mono _ fuel fuel2 hle _ _ _ h1,
        orphanPass_mono _ fuel fuel2 hle _ _ _ h2]

/-- Claim C8 (confirmed): the layout engine is a pure, deterministic function
of the input table: it reads no external state and uses no randomness, which
the shallow embedding witnesses by being a function, and the one auxiliary
input of the embedding — the recursion fuel — does not influence the result:
any two completing runs on the same table produce identical nodes (hence
bit-identical coordinates) and identical edge sets. -/
theorem c8_layout_deterministic (nodes : List TNode) (fuel1 fuel2 : Nat)
    (r1 r2 : LayoutResult)
    (h1 : computeTreeLayout fuel1 nodes = some r1)
    (h2 : computeTreeLayout fuel2 nodes = some r2) : r1 = r2 := by
  rcases Nat.le_total fuel1 fuel2 with hle | hle
  · exact Option.some.inj
      ((computeTreeLayout_mono nodes fuel1 fuel2 hle r1 h1).symm.trans h2)
  · exact (Option.some.inj
      ((computeTreeLayout_mono nodes fuel2 fuel1 hle r2 h2).symm.trans h1)).symm

/-- Claim C8 witness: two runs with different fuels on a concrete one-node
table complete and agree. -/
theorem c8_layout_deterministic_witness :
    ∃ r1 r2, computeTreeLayout 2 [(⟨0, none, "f", [], [], "r"⟩ : TNode)] = some r1
      ∧ computeTreeLayout 5 [(⟨0, none, "f", [], [], "r"⟩ : TNode)] = some r2
      ∧ r1 = r2 := by
  refine ⟨_, _, rfl, rfl, ?_⟩
  exact c8_layout_deterministic [⟨0, none, "f", [], [], "r"⟩] 2 5 _ _ rfl rfl

/-! ### A dangling-parent node is laid out as its own root -/

/-- `setDepth` at key `i` does not change the entry stored under a different
key. -/
theorem lookupKey_setDepth_ne (pos : List (Nat × PNode)) (i d k : Nat) (hk : k ≠ i) :
    lookupKey k (setDepth pos i d) = lookupKey k pos := by
  induction pos with
  | nil => rfl
  | cons q rest ih =>
    simp only [setDepth, List.map_cons]
    by_cases hq : q.1 = i
    · rw [if_pos hq]
      simp only [lookupKey]
      have hnk : ¬ (q.1 = k) := by
        rw [hq]
        exact fun he => hk he.symm
      rw [if_neg hnk, if_neg hnk]
      exact ih
    · rw [if_neg hq]
      simp only [lookupKey]
      by_cases hqk : q.1 = k
      · rw [if_pos hqk, if_pos hqk]
      · rw [if_neg hqk, if_neg hqk]
        exact ih

/-- `setDepth` at key `i` rewrites exactly the depth of the entry stored
under `i`. -/
theorem lookupKey_setDepth_self (pos : List (Nat × PNode)) (i d : Nat) :
    lookupKey i (setDepth pos i d)
      = (lookupKey i pos).map (fun pn => { pn with depth := d }) := by
  induction pos with
  | nil => rfl
  | cons q rest ih =>
    simp only [setDepth, List.map_cons]
    by_cases hq : q.1 = i
    · rw [if_pos hq]
      simp only [lookupKey]
      rw [if_pos hq, if_pos hq]
      rfl
    · rw [if_neg hq]
      simp only [lookupKey]
      rw [if_neg hq, if_neg hq]
      exact ih

/-- A successful depth traversal never changes the key list. -/
theorem assignDepth_keys_eq (cm : List (Nat × List Nat)) (fuel : Nat) (st : DepthSt)
    (i d : Nat) (st2 : DepthSt) (h : assignDepth cm fuel st i d = some st2) :
    st2.1.map (fun p => p.1) = st.1.map (fun p => p.1) :=
  assignDepth_preserves cm
    (fun pos => pos.map (fun p => p.1) = st.1.map (fun p => p.1))
    (fun pos i2 d2 hp => by
      show (setDepth pos i2 d2).map (fun p => p.1) = st.1.map (fun p => p.1)
      rw [setDepth_keys]
      exact hp) fuel st i d st2 h rfl

/-- If node `x` is recorded as a child only under parents that are not
present in the positioned map, then a depth traversal started anywhere else
never touches `x`'s entry or visits `x`. -/
theorem assignDepth_untouched (cm : List (Nat × List Nat)) (K : List Nat) (x : Nat)
    (hx : ∀ kl ∈ cm, x ∈ kl.2 → ¬ kl.1 ∈ K) :
    ∀ fuel (st : DepthSt) i d st2, assignDepth cm fuel st i d = some st2 →
      st.1.map (fun p => p.1) = K → i ≠ x →
      lookupKey x st2.1 = lookupKey x st.1 ∧ (x ∈ st2.2 ↔ x ∈ st.2) := by
  intro fuel
  induction fuel with
  | zero => intro st i d st2 h _ _; cases h
  | succ fuel ih =>
    intro st i d st2 h hK hix
    simp only [assignDepth] at h
    cases hl : lookupKey i st.1 with
    | none =>
      rw [hl] at h
      cases h
      exact ⟨rfl, Iff.rfl⟩
    | some pn =>
      rw [hl] at h
      have hiK : i ∈ K := by
        rw [← hK]
        exact lookupKey_isSome_iff.mp (by rw [hl]; rfl)
      have hkid : ∀ c ∈ (lookupKey i cm).getD [], c ≠ x := by
        intro c hc hcx
        cases hcml : lookupKey i cm with
        | none => rw [hcml] at hc; cases hc
        | some kids =>
          rw [hcml] at hc
          exact hx (i, kids) (lookupKey_mem hcml) (hcx ▸ hc) hiK
      have hrun : ∀ (ks : List Nat), (∀ c ∈ ks, c ≠ x) →
          ∀ (stA stB : DepthSt),
            runKids (fun s c => assignDepth cm fuel s c (d + 1)) stA ks = some stB →
            stA.1.map (fun p => p.1) = K →
            lookupKey x stB.1 = lookupKey x stA.1 ∧ (x ∈ stB.2 ↔ x ∈ stA.2) := by
        intro ks
        induction ks with
        | nil =>
          intro _ stA stB hr _
          cases hr
          exact ⟨rfl, Iff.rfl⟩
        | cons c cs ihk =>
          intro hcs stA stB hr hKA
          simp only [runKids] at hr
          cases hc : assignDepth cm fuel stA c (d + 1) with
          | none => rw [hc] at hr; cases hr
          | some stC =>
            rw [hc] at hr
            have h1 := ih stA c (d + 1) stC hc hKA (hcs c (List.mem_cons_self _ _))
            have hKC : stC.1.map (fun p => p.1) = K := by
              rw [assignDepth_keys_eq cm fuel stA c (d + 1) stC hc]
              exact hKA
            have h2 := ihk (fun c2 hc2 => hcs c2 (List.mem_cons_of_mem _ hc2)) stC stB hr hKC
            exact ⟨h2.1.trans h1.1, h2.2.trans h1.2⟩
      have hKset : ((setDepth st.1 i d, i :: st.2) : DepthSt).1.map (fun p => p.1) = K := by
        rw [setDepth_keys]
        exact hK
      have hres := hrun _ hkid (setDepth st.1 i d, i :: st.2) st2 h hKset
      constructor
      · rw [hres.1]
        exact lookupKey_setDepth_ne st.1 i d x (fun he => hix he.symm)
      · rw [hres.2]
        simp only [List.mem_cons]
        constructor
        · rintro (he | he)
          · exact absurd he.symm hix
          · exact he
        · exact Or.inr

/-- Visiting a list of children none of which is `x` never touches `x`'s
entry. -/
theorem runKids_untouched (cm : List (Nat × List Nat)) (K : List Nat) (x : Nat)
    (hx : ∀ kl ∈ cm, x ∈ kl.2 → ¬ kl.1 ∈ K) (fuel d : Nat) :
    ∀ (ks : List Nat), (∀ c ∈ ks, c ≠ x) → ∀ (stA stB : DepthSt),
      runKids (fun s c => assignDepth cm fuel s c d) stA ks = some stB →
      stA.1.map (fun p => p.1) = K →
      lookupKey x stB.1 = lookupKey x stA.1 ∧ (x ∈ stB.2 ↔ x ∈ stA.2) := by
  intro ks
  induction ks with
  | nil =>
    intro _ stA stB hr _
    cases hr
    exact ⟨rfl, Iff.rfl⟩
  | cons c cs ihk =>
    intro hcs stA stB hr hKA
    simp only [runKids] at hr
    cases hc : assignDepth cm fuel stA c d with
    | none => rw [hc] at hr; cases hr
    | some stC =>
      rw [hc] at hr
      have h1 := assignDepth_untouched cm K x hx fuel stA c d stC hc hKA
        (hcs c (List.mem_cons_self _ _))
      have hKC : stC.1.map (fun p => p.1) = K := by
        rw [assignDepth_keys_eq cm fuel stA c d stC hc]
        exact hKA
      have h2 := ihk (fun c2 hc2 => hcs c2 (List.mem_cons_of_mem _ hc2)) stC stB hr hKC
      exact ⟨h2.1.trans h1.1, h2.2.trans h1.2⟩

/-- A depth traversal started at `x` itself, when `x` is nobody's reachable
child, sets `x`'s depth to the start depth 0 and never changes it again. -/
theorem assignDepth_x_zero (cm : List (Nat × List Nat)) (K : List Nat) (x : Nat)
    (hx : ∀ kl ∈ cm, x ∈ kl.2 → ¬ kl.1 ∈ K) (fuel : Nat) (st st2 : DepthSt)
    (pn : PNode) (hpn : lookupKey x st.1 = some pn)
    (h : assignDepth cm fuel st x 0 = some st2)
    (hK : st.1.map (fun p => p.1) = K) :
    lookupKey x st2.1 = some { pn with depth := 0 } := by
  cases fuel with
  | zero => cases h
  | succ fuel =>
    simp only [assignDepth] at h
    rw [hpn] at h
    have hxK : x ∈ K := by
      rw [← hK]
      exact lookupKey_isSome_iff.mp (by rw [hpn]; rfl)
    have hkid : ∀ c ∈ (lookupKey x cm).getD [], c ≠ x := by
      intro c hc hcx
      cases hcml : lookupKey x cm with
      | none => rw [hcml] at hc; cases hc
      | some kids =>
        rw [hcml] at hc
        exact hx (x, kids) (lookupKey_mem hcml) (hcx ▸ hc) hxK
    have hKset : ((setDepth st.1 x 0, x :: st.2) : DepthSt).1.map (fun p => p.1) = K := by
      rw [setDepth_keys]
      exact hK
    have hres := runKids_untouched cm K x hx fuel 1 _ hkid
      (setDepth st.1 x 0, x :: st.2) st2 h hKset
    rw [hres.1, lookupKey_setDepth_self, hpn]
    rfl

/-- The root pass never touches `x`'s entry when no iterated parent-null
node is `x`. -/
theorem rootPass_untouched (cm : List (Nat × List Nat)) (K : List Nat) (x : Nat)
    (hx : ∀ kl ∈ cm, x ∈ kl.2 → ¬ kl.1 ∈ K) (fuel : Nat) :
    ∀ (its : List (Nat × PNode)), (∀ kp ∈ its, kp.2.parent = none → kp.2.id ≠ x) →
      ∀ (st st2 : DepthSt), rootPass cm fuel st its = some st2 →
        st.1.map (fun p => p.1) = K →
        lookupKey x st2.1 = lookupKey x st.1 ∧ (x ∈ st2.2 ↔ x ∈ st.2)
          ∧ st2.1.map (fun p => p.1) = K := by
  intro its
  induction its with
  | nil =>
    intro _ st st2 h hK
    cases h
    exact ⟨rfl, Iff.rfl, hK⟩
  | cons it rest ih =>
    intro hits st st2 h hK
    obtain ⟨k, nd⟩ := it
    simp only [rootPass] at h
    by_cases hroot : nd.parent = none
    · rw [if_pos hroot] at h
      cases ha : assignDepth cm fuel st nd.id 0 with
      | none => rw [ha] at h; cases h
      | some st3 =>
        rw [ha] at h
        have hndx : nd.id ≠ x := hits (k, nd) (List.mem_cons_self _ _) hroot
        have h1 := assignDepth_untouched cm K x hx fuel st nd.id 0 st3 ha hK hndx
        have hK3 : st3.1.map (fun p => p.1) = K := by
          rw [assignDepth_keys_eq cm fuel st nd.id 0 st3 ha]
          exact hK
        have h2 := ih (fun kp hkp => hits kp (List.mem_cons_of_mem _ hkp)) st3 st2 h hK3
        exact ⟨h2.1.trans h1.1, h2.2.1.trans h1.2, h2.2.2⟩
    · rw [if_neg hroot] at h
      exact ih (fun kp hkp => hits kp (List.mem_cons_of_mem _ hkp)) st st2 h hK

/-- The orphan pass never touches `x`'s entry when no iterated node is `x`. -/
theorem orphanPass_untouched (cm : List (Nat × List Nat)) (K : List Nat) (x : Nat)
    (hx : ∀ kl ∈ cm, x ∈ kl.2 → ¬ kl.1 ∈ K) (fuel : Nat) :
    ∀ (its : List (Nat × PNode)), (∀ kp ∈ its, kp.2.id ≠ x) →
      ∀ (st st2 : DepthSt), orphanPass cm fuel st its = some st2 →
        st.1.map (fun p => p.1) = K →
        lookupKey x st2.1 = lookupKey x st.1 ∧ (x ∈ st2.2 ↔ x ∈ st.2)
          ∧ st2.1.map (fun p => p.1) = K := by
  intro its
  induction its with
  | nil =>
    intro _ st st2 h hK
    cases h
    exact ⟨rfl, Iff.rfl, hK⟩
  | cons it rest ih =>
    intro hits st st2 h hK
    obtain ⟨k, nd⟩ := it
    simp only [orphanPass] at h
    by_cases hvis : nd.id ∈ st.2
    · rw [if_pos hvis] at h
      exact ih (fun kp hkp => hits kp (List.mem_cons_of_mem _ hkp)) st st2 h hK
    · rw [if_neg hvis] at h
      cases ha : assignDepth cm fuel st nd.id 0 with
      | none => rw [ha] at h; cases h
      | some st3 =>
        rw [ha] at h
        have hndx : nd.id ≠ x := hits (k, nd) (List.mem_cons_self _ _)
        have h1 := assignDepth_untouched cm K x hx fuel st nd.id 0 st3 ha hK hndx
        have hK3 : st3.1.map (fun p => p.1) = K := by
          rw [assignDepth_keys_eq cm fuel st nd.id 0 st3 ha]
          exact hK
        have h2 := ih (fun kp hkp => hits kp (List.mem_cons_of_mem _ hkp)) st3 st2 h hK3
        exact ⟨h2.1.trans h1.1, h2.2.1.trans h1.2, h2.2.2⟩

/-- The orphan pass over a concatenated iteration list runs the two parts in
sequence. -/
theorem orphanPass_append (cm : List (Nat × List Nat)) (fuel : Nat) :
    ∀ (l1 l2 : List (Nat × PNode)) (st : DepthSt),
      orphanPass cm fuel st (l1 ++ l2)
        = match orphanPass cm fuel st l1 with
          | none => none
          | some st1 => orphanPass cm fuel st1 l2 := by
  intro l1
  induction l1 with
  | nil => intro l2 st; rfl
  | cons it rest ih =>
    intro l2 st
    obtain ⟨k, nd⟩ := it
    simp only [List.cons_append, orphanPass]
    by_cases hvis : nd.id ∈ st.2
    · simp only [if_pos hvis]
      exact ih l2 st
    · simp only [if_neg hvis]
      cases ha : assignDepth cm fuel st nd.id 0 with
      | none => rfl
      | some st3 => exact ih l2 st3

/-- A `Map.set` keeps the key list duplicate-free. -/
theorem mapSet_keys_nodup {β : Type} (d : List (Nat × β)) (k : Nat) (v : β)
    (h : (d.map (fun p => p.1)).Nodup) : ((mapSet d k v).map (fun p => p.1)).Nodup := by
  unfold mapSet
  by_cases ha : (d.any fun q => decide (q.1 = k)) = true
  · rw [if_pos ha]
    have hmaps : (d.map (fun p => if p.1 = k then (k, v) else p)).map (fun p => p.1)
        = d.map (fun p => p.1) := by
      rw [List.map_map]
      apply List.map_congr_left
      intro p _
      by_cases hp : p.1 = k
      · simp [hp]
      · simp [hp]
    rw [hmaps]
    exact h
  · rw [if_neg ha]
    have hk : ¬ k ∈ d.map (fun p => p.1) := by
      intro hmem
      obtain ⟨p, hp, hpk⟩ := List.mem_map.mp hmem
      exact ha (List.any_eq_true.mpr ⟨p, hp, by simpa using hpk⟩)
    rw [List.map_append]
    apply List.Nodup.append h (List.nodup_singleton k)
    intro a haa hab
    rw [List.mem_singleton.mp hab] at haa
    exact hk haa

/-- The keys of the positioned map built by the first pass are
duplicate-free. -/
theorem buildFold_keys_nodup (nodes : List TNode) :
    ∀ (acc : List (Nat × PNode) × List (Nat × List Nat)),
      (acc.1.map (fun p => p.1)).Nodup →
      ((nodes.foldl buildStep acc).1.map (fun p => p.1)).Nodup := by
  induction nodes with
  | nil => intro acc h; exact h
  | cons nd0 rest ih =>
    intro acc h
    simp only [List.foldl_cons]
    apply ih
    rw [buildStep_pos]
    exact mapSet_keys_nodup _ _ _ h

/-- Every edge comes from a laid-out node with that parent, and its target is
that node's id. -/
theorem mem_buildEdges (posF : List (Nat × PNode)) :
    ∀ e ∈ buildEdges posF, ∃ kp ∈ posF, kp.2.parent = some e.1 ∧ e.2 = kp.2.id
      ∧ (lookupKey e.1 posF).isSome = true := by
  have haux : ∀ (l : List (Nat × PNode)) (acc : List (Nat × Nat)),
      ∀ e ∈ l.foldl (fun es p =>
        match p.2.parent with
        | some par => if (lookupKey par posF).isSome then es ++ [(par, p.2.id)] else es
        | none => es) acc,
      e ∈ acc ∨ ∃ kp ∈ l, kp.2.parent = some e.1 ∧ e.2 = kp.2.id
        ∧ (lookupKey e.1 posF).isSome = true := by
    intro l
    induction l with
    | nil => intro acc e he; exact Or.inl he
    | cons q rest ih =>
      intro acc e he
      simp only [List.foldl_cons] at he
      rcases ih _ e he with h | ⟨kp, hkp, hp⟩
      · cases hpp : q.2.parent with
        | none =>
          rw [hpp] at h
          exact Or.inl h
        | some par =>
          rw [hpp] at h
          have hred : (match some par with
              | some par2 =>
                if (lookupKey par2 posF).isSome = true then acc ++ [(par2, q.2.id)] else acc
              | none => acc)
              = if (lookupKey par posF).isSome = true then acc ++ [(par, q.2.id)] else acc := rfl
          rw [hred] at h
          by_cases hs : (lookupKey par posF).isSome = true
          · rw [if_pos hs] at h
            rcases List.mem_append.mp h with h2 | h2
            · exact Or.inl h2
            · have he2 := List.mem_singleton.mp h2
              subst he2
              exact Or.inr ⟨q, List.mem_cons_self _ _, hpp, rfl, hs⟩
          · rw [if_neg hs] at h
            exact Or.inl h
      · exact Or.inr ⟨kp, List.mem_cons_of_mem _ hkp, hp⟩
  intro e he
  rcases haux posF [] e he with h | h
  · cases h
  · exact h

/-- Claim C5 (amended, confirmed): for every recorder-shaped trace table
(distinct ids, non-null parents strictly smaller than the child id)
containing a node `x` whose declared parent id is not the id of any node of
the table, the LAYOUT engine treats `x` as an additional root rather than
failing: the layout completes, covers every node including `x`, assigns `x`
depth 0 via the second pass, and emits no edge into `x` (the dangling parent
edge is silently dropped).  The Python Tree Indexer `_build_children`, by
contrast, does NOT put such a node in its root set, and the textual
renderers consequently omit it entirely (see the counterexample). -/
theorem c5_dangling_parent_layout_root (nodes : List TNode) (x : TNode) (p : Nat)
    (hmem : x ∈ nodes) (hxpar : x.parent = some p)
    (hdangling : ∀ nd ∈ nodes, nd.id ≠ p)
    (hpar : ∀ nd ∈ nodes, ∀ q, nd.parent = some q → q < nd.id)
    (hnodup : (nodes.map (fun nd => nd.id)).Nodup) :
    ∃ r, computeTreeLayout (nodes.length + 1) nodes = some r
      ∧ (∀ nd ∈ nodes, ∃ pn ∈ r.nodes, pn.id = nd.id)
      ∧ (∃ pn ∈ r.nodes, pn.id = x.id ∧ pn.depth = 0)
      ∧ (∀ e ∈ r.edges, e.2 ≠ x.id) := by
  have hinj : ∀ nd ∈ nodes, nd.id = x.id → nd = x :=
    fun nd hnd he => List.inj_on_of_nodup_map hnodup hnd hmem he
  have hQ : ∀ kp ∈ (buildMaps nodes).1,
      kp.2.id = kp.1 ∧ (kp.2.id = x.id → kp.2.parent = some p) := by
    apply buildFold_pos (fun k pn => pn.id = k ∧ (pn.id = x.id → pn.parent = some p))
      nodes ([], [])
    · intro kp hkp
      cases hkp
    · intro nd hnd
      refine ⟨rfl, fun he => ?_⟩
      have hnx : nd = x := hinj nd hnd he
      rw [hnx]
      exact hxpar
  have hKnodup : ((buildMaps nodes).1.map (fun q => q.1)).Nodup :=
    buildFold_keys_nodup nodes ([], []) (by simp)
  have hpK : ¬ p ∈ (buildMaps nodes).1.map (fun q => q.1) := by
    intro hmemp
    rcases buildFold_keys_from nodes ([], []) p hmemp with h | ⟨nd, hnd, hid⟩
    · simp at h
    · exact hdangling nd hnd hid
  have hxcm : ∀ kl ∈ (buildMaps nodes).2, x.id ∈ kl.2 →
      ¬ kl.1 ∈ (buildMaps nodes).1.map (fun q => q.1) := by
    have hcmchar := buildFold_cm (fun par c => c = x.id → par = p) nodes ([], [])
      (fun kl hkl => by cases hkl)
      (fun nd hnd par hp2 he => by
        have hnx : nd = x := hinj nd hnd he
        rw [hnx, hxpar] at hp2
        exact (Option.some.inj hp2).symm)
    intro kl hkl hxin hmemk
    have hklp := hcmchar kl hkl x.id hxin rfl
    rw [hklp] at hmemk
    exact hpK hmemk
  have hcm : ∀ kl ∈ (buildMaps nodes).2, ∀ c ∈ kl.2, kl.1 < c :=
    buildFold_cm (fun par c => par < c) nodes ([], []) (fun kl hkl => by cases hkl) hpar
  have hlen : ((buildMaps nodes).1.map (fun q => q.1)).length < nodes.length + 1 := by
    rw [List.length_map]
    have := buildFold_length nodes ([], [])
    simpa using Nat.lt_succ_of_le (by simpa using this)
  obtain ⟨st1, h1, hk1⟩ := rootPass_total (buildMaps nodes).2
    ((buildMaps nodes).1.map (fun q => q.1)) hcm (nodes.length + 1) hlen
    (buildMaps nodes).1 ((buildMaps nodes).1, []) rfl
  obtain ⟨st2, h2, hk2⟩ := orphanPass_total (buildMaps nodes).2
    ((buildMaps nodes).1.map (fun q => q.1)) hcm (nodes.length + 1) hlen
    (buildMaps nodes).1 st1 hk1
  have hsetP : ∀ pos i d,
      (∀ kp ∈ pos, kp.2.id = kp.1 ∧ (kp.2.id = x.id → kp.2.parent = some p)) →
      ∀ kp ∈ setDepth pos i d, kp.2.id = kp.1 ∧ (kp.2.id = x.id → kp.2.parent = some p) := by
    intro pos i d hp kp hkp
    obtain ⟨kq, hkq, he1, he2, he3⟩ := setDepth_mem pos i d kp hkp
    obtain ⟨hq1, hq2⟩ := hp kq hkq
    refine ⟨by rw [he2, hq1, he1], fun hxid => ?_⟩
    rw [he3]
    exact hq2 (by rw [← he2]; exact hxid)
  have hQ2 : ∀ kp ∈ st2.1, kp.2.id = kp.1 ∧ (kp.2.id = x.id → kp.2.parent = some p) := by
    have hp1 := rootPass_preserves (buildMaps nodes).2 (nodes.length + 1)
      (fun pos => ∀ kp ∈ pos, kp.2.id = kp.1 ∧ (kp.2.id = x.id → kp.2.parent = some p))
      hsetP (buildMaps nodes).1 ((buildMaps nodes).1, []) st1 h1 hQ
    exact orphanPass_preserves (buildMaps nodes).2 (nodes.length + 1)
      (fun pos => ∀ kp ∈ pos, kp.2.id = kp.1 ∧ (kp.2.id = x.id → kp.2.parent = some p))
      hsetP (buildMaps nodes).1 st1 st2 h2 hp1
  have hxkey : x.id ∈ (buildMaps nodes).1.map (fun q => q.1) :=
    buildFold_covers nodes ([], []) x hmem
  obtain ⟨pn0, hpn0⟩ := Option.isSome_iff_exists.mp (lookupKey_isSome_iff.mpr hxkey)
  have hxin : (x.id, pn0) ∈ (buildMaps nodes).1 := lookupKey_mem hpn0
  have hpn0id : pn0.id = x.id := (hQ (x.id, pn0) hxin).1
  have hits1 : ∀ kp ∈ (buildMaps nodes).1, kp.2.parent = none → kp.2.id ≠ x.id := by
    intro kp hkp hnone he
    have hps := (hQ kp hkp).2 he
    rw [hps] at hnone
    cases hnone
  have hu1 := rootPass_untouched (buildMaps nodes).2
    ((buildMaps nodes).1.map (fun q => q.1)) x.id hxcm (nodes.length + 1)
    (buildMaps nodes).1 hits1 ((buildMaps nodes).1, []) st1 h1 rfl
  obtain ⟨L1, L2, hsplit⟩ := List.append_of_mem hxin
  have hkeys_split : ((L1 ++ (x.id, pn0) :: L2).map (fun q => q.1)).Nodup := by
    rw [← hsplit]
    exact hKnodup
  rw [List.map_append, List.map_cons] at hkeys_split
  have hnd := List.nodup_append.mp hkeys_split
  have hmemL1 : ∀ kp ∈ L1, kp ∈ (buildMaps nodes).1 := by
    intro kp hkp
    rw [hsplit]
    exact List.mem_append.mpr (Or.inl hkp)
  have hmemL2 : ∀ kp ∈ L2, kp ∈ (buildMaps nodes).1 := by
    intro kp hkp
    rw [hsplit]
    exact List.mem_append.mpr (Or.inr (List.mem_cons_of_mem _ hkp))
  have hitsL1 : ∀ kp ∈ L1, kp.2.id ≠ x.id := by
    intro kp hkp he
    have hkey : kp.1 = x.id := by
      rw [← (hQ kp (hmemL1 kp hkp)).1]
      exact he
    exact hnd.2.2 (List.mem_map.mpr ⟨kp, hkp, hkey⟩) (List.mem_cons_self _ _)
  have hitsL2 : ∀ kp ∈ L2, kp.2.id ≠ x.id := by
    intro kp hkp he
    have hkey : kp.1 = x.id := by
      rw [← (hQ kp (hmemL2 kp hkp)).1]
      exact he
    have hcons := hnd.2.1
    rw [List.nodup_cons] at hcons
    exact hcons.1 (List.mem_map.mpr ⟨kp, hkp, hkey⟩)
  have h2s := h2
  rw [hsplit, orphanPass_append] at h2s
  cases hA : orphanPass (buildMaps nodes).2 (nodes.length + 1) st1 L1 with
  | none =>
    rw [hA] at h2s
    cases h2s
  | some stA =>
    rw [hA] at h2s
    have h2x : orphanPass (buildMaps nodes).2 (nodes.length + 1) stA
        ((x.id, pn0) :: L2) = some st2 := h2s
    have huA := orphanPass_untouched (buildMaps nodes).2
      ((buildMaps nodes).1.map (fun q => q.1)) x.id hxcm (nodes.length + 1)
      L1 hitsL1 st1 stA hA hu1.2.2
    have hlookA : lookupKey x.id stA.1 = some pn0 := by
      rw [huA.1, hu1.1]
      exact hpn0
    have hnvisA : ¬ x.id ∈ stA.2 := by
      intro hv
      have hv1 := huA.2.1.mp hv
      have hv0 := hu1.2.1.mp hv1
      cases hv0
    have hnvis : ¬ pn0.id ∈ stA.2 := by
      rw [hpn0id]
      exact hnvisA
    simp only [orphanPass, if_neg hnvis] at h2x
    cases hB : assignDepth (buildMaps nodes).2 (nodes.length + 1) stA pn0.id 0 with
    | none =>
      rw [hB] at h2x
      cases h2x
    | some stB =>
      rw [hB] at h2x
      have h2L2 : orphanPass (buildMaps nodes).2 (nodes.length + 1) stB L2 = some st2 := h2x
      rw [hpn0id] at hB
      have hxz := assignDepth_x_zero (buildMaps nodes).2
        ((buildMaps nodes).1.map (fun q => q.1)) x.id hxcm (nodes.length + 1)
        stA stB pn0 hlookA hB huA.2.2
      have hkB : stB.1.map (fun q => q.1) = (buildMaps nodes).1.map (fun q => q.1) := by
        rw [assignDepth_keys_eq _ _ _ _ _ _ hB]
        exact huA.2.2
      have huB := orphanPass_untouched (buildMaps nodes).2
        ((buildMaps nodes).1.map (fun q => q.1)) x.id hxcm (nodes.length + 1)
        L2 hitsL2 stB st2 h2L2 hkB
      have hfinal : lookupKey x.id st2.1 = some { pn0 with depth := 0 } := by
        rw [huB.1]
        exact hxz
      refine ⟨⟨(applyCoords st2.1 (allCoords (buildLevels st2.1))).map (fun q => q.2),
              buildEdges (applyCoords st2.1 (allCoords (buildLevels st2.1)))⟩, ?_, ?_, ?_, ?_⟩
      · simp only [computeTreeLayout, h1, h2]
      · intro nd hnd
        have hid : nd.id ∈ st2.1.map (fun q => q.1) := by
          rw [hk2]
          exact buildFold_covers nodes ([], []) nd hnd
        have hid2 : nd.id ∈ (applyCoords st2.1 (allCoords (buildLevels st2.1))).map
            (fun q => q.1) := by
          rw [applyCoords_keys]
          exact hid
        obtain ⟨pn, hpn⟩ := Option.isSome_iff_exists.mp (lookupKey_isSome_iff.mpr hid2)
        have hmemF := lookupKey_mem hpn
        obtain ⟨kq, hkq, he1, he2, _, _⟩ := applyCoords_mem _ _ _ hmemF
        refine ⟨pn, List.mem_map.mpr ⟨(nd.id, pn), hmemF, rfl⟩, ?_⟩
        rw [he2, (hQ2 kq hkq).1, ← he1]
      · have hmemx : (x.id, { pn0 with depth := 0 }) ∈ st2.1 := lookupKey_mem hfinal
        refine ⟨(applyCoordsEntry (allCoords (buildLevels st2.1)) (x.id, { pn0 with depth := 0 })).2,
          ?_, ?_, ?_⟩
        · exact List.mem_map.mpr ⟨applyCoordsEntry (allCoords (buildLevels st2.1))
            (x.id, { pn0 with depth := 0 }),
            List.mem_map.mpr ⟨(x.id, { pn0 with depth := 0 }), hmemx, rfl⟩, rfl⟩
        · unfold applyCoordsEntry
          cases lookupKey x.id (allCoords (buildLevels st2.1)) with
          | none => exact hpn0id
          | some c => exact hpn0id
        · unfold applyCoordsEntry
          cases lookupKey x.id (allCoords (buildLevels st2.1)) with
          | none => rfl
          | some c => rfl
      · intro e he hex
        obtain ⟨kp, hkp, hpar2, hid2, hsome⟩ :=
          mem_buildEdges (applyCoords st2.1 (allCoords (buildLevels st2.1))) e he
        obtain ⟨kq, hkq, _, hq2, hq3, _⟩ := applyCoords_mem _ _ _ hkp
        have hkqx : kq.2.id = x.id := by
          rw [← hq2, ← hid2]
          exact hex
        have hkqp : kq.2.parent = some p := (hQ2 kq hkq).2 hkqx
        have hep : e.1 = p := by
          have hpp2 : kq.2.parent = some e.1 := by
            rw [← hq3]
            exact hpar2
          rw [hkqp] at hpp2
          exact (Option.some.inj hpp2).symm
        have hpmem : p ∈ (applyCoords st2.1 (allCoords (buildLevels st2.1))).map
            (fun q => q.1) := by
          apply lookupKey_isSome_iff.mp
          rw [← hep]
          exact hsome
        rw [applyCoords_keys, hk2] at hpmem
        exact hpK hpmem

/-- Claim C5 witness: the dangling-parent layout theorem applied to the
concrete table with a root node 0 and a node 5 whose parent 3 is absent. -/
theorem c5_dangling_parent_layout_root_witness :
    ((⟨5, some 3, "g", [], [], "b"⟩ : TNode)
        ∈ [(⟨0, none, "f", [], [], "a"⟩ : TNode), ⟨5, some 3, "g", [], [], "b"⟩])
      ∧ (∀ nd ∈ [(⟨0, none, "f", [], [], "a"⟩ : TNode), ⟨5, some 3, "g", [], [], "b"⟩],
          nd.id ≠ 3)
      ∧ ∃ r, computeTreeLayout 3
            [(⟨0, none, "f", [], [], "a"⟩ : TNode), ⟨5, some 3, "g", [], [], "b"⟩] = some r
          ∧ (∀ nd ∈ [(⟨0, none, "f", [], [], "a"⟩ : TNode), ⟨5, some 3, "g", [], [], "b"⟩],
              ∃ pn ∈ r.nodes, pn.id = nd.id)
          ∧ (∃ pn ∈ r.nodes, pn.id = 5 ∧ pn.depth = 0)
          ∧ (∀ e ∈ r.edges, e.2 ≠ 5) :=
  ⟨by decide, by decide,
    c5_dangling_parent_layout_root
      [⟨0, none, "f", [], [], "a"⟩, ⟨5, some 3, "g", [], [], "b"⟩]
      ⟨5, some 3, "g", [], [], "b"⟩ 3 (by decide) rfl (by decide) (by decide) (by decide)⟩

/-- Claim C4 (counterexample): on the malformed table containing one node
that is its own parent, the layout engine does NOT terminate: `assignDepth`
has no cycle guard (`visited` is only consulted by the second pass before
starting a traversal), so the traversal started by the second pass revisits
node 0 forever and `computeTreeLayout` fails at every finite recursion
depth. -/
theorem c4_cycle_divergence : layoutDiverges [selfLoopNode] := by
  intro fuel
  have hmaps : buildMaps [selfLoopNode] = ([(0, mkPNode selfLoopNode)], [(0, [0])]) := rfl
  have hroot : rootPass [(0, [0])] fuel ([(0, mkPNode selfLoopNode)], [])
      [(0, mkPNode selfLoopNode)] = some ([(0, mkPNode selfLoopNode)], []) := rfl
  have h2 : assignDepth [(0, [0])] fuel ([(0, mkPNode selfLoopNode)], []) 0 0 = none :=
    assignDepth_selfLoop_none fuel ([(0, mkPNode selfLoopNode)], []) 0 rfl
  have horphan : orphanPass [(0, [0])] fuel ([(0, mkPNode selfLoopNode)], [])
      [(0, mkPNode selfLoopNode)] = none := by
    show (match assignDepth [(0, [0])] fuel ([(0, mkPNode selfLoopNode)], []) 0 0 with
          | none => none
          | some st2 => orphanPass [(0, [0])] fuel st2 []) = none
    rw [h2]
  simp only [computeTreeLayout, hmaps, hroot, horphan]

/-! ### The Python tree indexer and textual renderers
(`_build_children`, `print_ascii_tree`, `print_indented` in `TRACER_PY`) -/

/-- Association lookup for `Option Nat` keys (the `children` defaultdict is
keyed by the parent, which may be `None`). -/
def lookupOKey {β : Type} (k : Option Nat) : List (Option Nat × β) → Option β
  | [] => none
  | q :: rest => if q.1 = k then some q.2 else lookupOKey k rest

/-- `children[par].append(nid)` on a `defaultdict(list)`: append to the
existing list, or create a fresh singleton binding. -/
def addChildO (d : List (Option Nat × List Nat)) (k : Option Nat) (v : Nat) :
    List (Option Nat × List Nat) :=
  if d.any (fun q => q.1 = k) then
    d.map (fun q => if q.1 = k then (k, q.2 ++ [v]) else q)
  else d ++ [(k, [v])]

/-- `_build_children`: one loop over the table in insertion order, collecting
the parent-null ids as roots and building the adjacency.  Note that only
`par is None` nodes enter `roots`. -/
def build_children (t : List (Nat × Entry)) : List (Option Nat × List Nat) × List Nat :=
  t.foldl (fun acc ke =>
    (addChildO acc.1 ke.2.parent ke.1,
     if ke.2.parent = none then acc.2 ++ [ke.1] else acc.2)) ([], [])

/-- The display form of a Python dict of keyword arguments, `str(kwargs)`
(keys shown with `repr`, values by their modeled display strings). -/
def dictStr (k : List (String × String)) : String :=
  "\x7b" ++ String.intercalate ", "
    (k.map (fun kv => "\x27" ++ kv.1 ++ "\x27" ++ ": " ++ kv.2)) ++ "\x7d"

/-- `default_label` of `print_ascii_tree`: `#<id>(<args>[, **<kwargs>]) ->
<result>`; the kwargs segment appears only when the kwargs dict is truthy
(non-empty). -/
def default_label (nid : Nat) (node : Entry) : String :=
  if node.kwargs.isEmpty then
    "#" ++ toString nid ++ "(" ++ String.intercalate ", " node.args ++ ") -> " ++ node.result
  else
    "#" ++ toString nid ++ "(" ++ String.intercalate ", " node.args
      ++ ", **" ++ dictStr node.kwargs ++ ") -> " ++ node.result

/-- The `for i, c in enumerate(kids): _recurse(c, ..., i == len(kids) - 1)`
loop: visit each child, telling the last one it is last, concatenating the
printed lines and propagating failure. -/
def recurseAsciiKids (f : Nat → Bool → Option (List String)) :
    List Nat → Option (List String)
  | [] => some []
  | [c] => f c true
  | c :: c2 :: cs =>
    match f c false with
    | none => none
    | some l1 =>
      match recurseAsciiKids f (c2 :: cs) with
      | none => none
      | some l2 => some (l1 ++ l2)

/-- The recursive `_recurse` of `print_ascii_tree`, with explicit fuel (one
unit per nesting level): emit this node's connector line, then recurse into
its children with the extended prefix.  `none` models both fuel exhaustion
and a `KeyError` on a missing id. -/
def recurseAscii (t : List (Nat × Entry)) (cm : List (Option Nat × List Nat)) :
    Nat → Nat → String → Bool → Option (List String)
  | 0, _, _, _ => none
  | fuel + 1, nid, pfx, is_last =>
    match lookupKey nid t with
    | none => none
    | some node =>
      let connector := if is_last then "└── " else "├── "
      let line := pfx ++ connector ++ default_label nid node
      let childPfx := pfx ++ (if is_last then "    " else "│   ")
      match recurseAsciiKids (fun nid2 last2 => recurseAscii t cm fuel nid2 childPfx last2)
          ((lookupOKey (some nid) cm).getD []) with
      | none => none
      | some rest => some (line :: rest)

/-- One root's subtree in `print_ascii_tree`: the root's plain label line
followed by its children rendered with the empty prefix. -/
def rootBlock (t : List (Nat × Entry)) (cm : List (Option Nat × List Nat))
    (fuel : Nat) (r : Nat) : Option (List String) :=
  match lookupKey r t with
  | none => none
  | some node =>
    match recurseAsciiKids (fun c last => recurseAscii t cm fuel c "" last)
        ((lookupOKey (some r) cm).getD []) with
    | none => none
    | some kidLines => some (default_label r node :: kidLines)

/-- The roots loop of `print_ascii_tree`: one block per root, with a single
blank line printed after every root except the last. -/
def asciiRoots (t : List (Nat × Entry)) (cm : List (Option Nat × List Nat))
    (fuel : Nat) : List Nat → Option (List String)
  | [] => some []
  | [r] => rootBlock t cm fuel r
  | r :: r2 :: rs =>
    match rootBlock t cm fuel r with
    | none => none
    | some b =>
      match asciiRoots t cm fuel (r2 :: rs) with
      | none => none
      | some restL => some (b ++ [""] ++ restL)

/-- `print_ascii_tree` as the list of printed lines. -/
def print_ascii_tree (fuel : Nat) (t : List (Nat × Entry)) : Option (List String) :=
  asciiRoots t (build_children t).1 fuel (build_children t).2

/-- `"  " * depth`: the indentation of `print_indented`. -/
def repeatStr : Nat → String → String
  | 0, _ => ""
  | n + 1, s => s ++ repeatStr n s

/-- Visit a list of children sequentially, concatenating lines. -/
def printIndKids (f : Nat → Option (List String)) : List Nat → Option (List String)
  | [] => some []
  | c :: cs =>
    match f c with
    | none => none
    | some l1 =>
      match printIndKids f cs with
      | none => none
      | some l2 => some (l1 ++ l2)

/-- The recursive `_walk` of `print_indented`, with explicit fuel. -/
def printIndentedWalk (t : List (Nat × Entry)) (cm : List (Option Nat × List Nat)) :
    Nat → Nat → Nat → Option (List String)
  | 0, _, _ => none
  | fuel + 1, nid, depth =>
    match lookupKey nid t with
    | none => none
    | some node =>
      let args_s := String.intercalate ", " node.args
      let kw_s := if node.kwargs.isEmpty then "" else ", **" ++ dictStr node.kwargs
      let line := repeatStr depth "  " ++ "#" ++ toString nid ++ "(" ++ args_s ++ kw_s
        ++ ") -> " ++ node.result
      match printIndKids (fun c => printIndentedWalk t cm fuel c (depth + 1))
          ((lookupOKey (some nid) cm).getD []) with
      | none => none
      | some rest => some (line :: rest)

/-- `print_indented`: walk every root at depth 0 in order. -/
def print_indented (fuel : Nat) (t : List (Nat × Entry)) : Option (List String) :=
  printIndKids (fun r => printIndentedWalk t (build_children t).1 fuel r 0)
    (build_children t).2

/-- The shape the claim describes: blocks of lines separated by exactly one
blank line, with no blank line after the last block. -/
def sepByBlank : List (List String) → List String
  | [] => []
  | [b] => b
  | b :: b2 :: bs => b ++ [""] ++ sepByBlank (b2 :: bs)

theorem append3_ne_empty (a b c : String) (hb : 0 < b.length) : a ++ b ++ c ≠ "" := by
  intro he
  have hlen := congrArg String.length he
  simp only [String.length_append] at hlen
  have hz : ("" : String).length = 0 := rfl
  omega

theorem default_label_ne_empty (nid : Nat) (node : Entry) :
    default_label nid node ≠ "" := by
  unfold default_label
  split <;>
  · intro he
    have hlen := congrArg String.length he
    simp only [String.length_append] at hlen
    have h1 : ("#" : String).length = 1 := rfl
    have hz : ("" : String).length = 0 := rfl
    omega

/-- The child loop emits no blank line if no child visit does. -/
theorem recurseAsciiKids_no_blank (f : Nat → Bool → Option (List String))
    (hf : ∀ c last ls, f c last = some ls → ∀ l ∈ ls, l ≠ "") :
    ∀ (ks : List Nat) (ls : List String), recurseAsciiKids f ks = some ls →
      ∀ l ∈ ls, l ≠ "" := by
  intro ks
  induction ks with
  | nil =>
    intro ls h l hl
    cases h
    cases hl
  | cons c cs ih =>
    intro ls h l hl
    cases cs with
    | nil => exact hf c true ls h l hl
    | cons c2 cs2 =>
      simp only [recurseAsciiKids] at h
      cases h1 : f c false with
      | none => rw [h1] at h; cases h
      | some l1 =>
        rw [h1] at h
        cases h2 : recurseAsciiKids f (c2 :: cs2) with
        | none => rw [h2] at h; cases h
        | some l2 =>
          rw [h2] at h
          cases h
          rcases List.mem_append.mp hl with hm | hm
          · exact hf c false l1 h1 l hm
          · exact ih l2 h2 l hm

/-- Every line printed by `_recurse` carries a connector, hence is never
blank. -/
theorem recurseAscii_no_blank (t : List (Nat × Entry)) (cm : List (Option Nat × List Nat)) :
    ∀ fuel nid pfx is_last ls, recurseAscii t cm fuel nid pfx is_last = some ls →
      ∀ l ∈ ls, l ≠ "" := by
  intro fuel
  induction fuel with
  | zero => intro nid pfx is_last ls h; cases h
  | succ fuel ih =>
    intro nid pfx is_last ls h l hl
    simp only [recurseAscii] at h
    cases hlk : lookupKey nid t with
    | none => rw [hlk] at h; cases h
    | some node =>
      rw [hlk] at h
      cases h2 : recurseAsciiKids
          (fun nid2 last2 => recurseAscii t cm fuel nid2
            (pfx ++ (if is_last then "    " else "│   ")) last2)
          ((lookupOKey (some nid) cm).getD []) with
      | none => rw [h2] at h; cases h
      | some rest =>
        rw [h2] at h
        cases h
        rcases List.mem_cons.mp hl with hm | hm
        · subst hm
          cases is_last
          · exact append3_ne_empty pfx "├── " (default_label nid node) (by decide)
          · exact append3_ne_empty pfx "└── " (default_label nid node) (by decide)
        · exact recurseAsciiKids_no_blank _
            (fun c last ls2 hc => ih c _ last ls2 hc) _ rest h2 l hm

/-- A root's subtree block is non-empty and contains no blank line. -/
theorem rootBlock_shape (t : List (Nat × Entry)) (cm : List (Option Nat × List Nat))
    (fuel : Nat) (r : Nat) (b : List String) (h : rootBlock t cm fuel r = some b) :
    b ≠ [] ∧ ∀ l ∈ b, l ≠ "" := by
  unfold rootBlock at h
  cases hlk : lookupKey r t with
  | none => rw [hlk] at h; cases h
  | some node =>
    rw [hlk] at h
    cases h2 : recurseAsciiKids (fun c last => recurseAscii t cm fuel c "" last)
        ((lookupOKey (some r) cm).getD []) with
    | none => rw [h2] at h; cases h
    | some kidLines =>
      rw [h2] at h
      cases h
      refine ⟨List.cons_ne_nil _ _, ?_⟩
      intro l hl
      rcases List.mem_cons.mp hl with hm | hm
      · subst hm
        exact default_label_ne_empty r node
      · exact recurseAsciiKids_no_blank _
          (fun c last ls2 hc => recurseAscii_no_blank t cm fuel c _ last ls2 hc)
          _ kidLines h2 l hm

/-- The roots loop produces exactly the root blocks separated by single blank
lines, with none after the last. -/
theorem asciiRoots_blocks (t : List (Nat × Entry)) (cm : List (Option Nat × List Nat))
    (fuel : Nat) :
    ∀ (rs : List Nat) (ls : List String), asciiRoots t cm fuel rs = some ls →
      ∃ blocks, ls = sepByBlank blocks
        ∧ List.Forall₂ (fun r b => rootBlock t cm fuel r = some b) rs blocks := by
  intro rs
  induction rs with
  | nil =>
    intro ls h
    cases h
    exact ⟨[], rfl, List.Forall₂.nil⟩
  | cons r rs2 ih =>
    intro ls h
    cases rs2 with
    | nil => exact ⟨[ls], rfl, List.Forall₂.cons h List.Forall₂.nil⟩
    | cons r2 rs3 =>
      simp only [asciiRoots] at h
      cases h1 : rootBlock t cm fuel r with
      | none => rw [h1] at h; cases h
      | some b =>
        rw [h1] at h
        cases h2 : asciiRoots t cm fuel (r2 :: rs3) with
        | none => rw [h2] at h; cases h
        | some restL =>
          rw [h2] at h
          cases h
          obtain ⟨blocks2, hb1, hb2⟩ := ih restL h2
          cases blocks2 with
          | nil => cases hb2
          | cons b2 bs =>
            refine ⟨b :: b2 :: bs, ?_, List.Forall₂.cons h1 hb2⟩
            rw [hb1]
            rfl

/-- From a pointwise relation between roots and blocks, every block is
related to some root. -/
theorem forall₂_exists_left {R : Nat → List String → Prop} :
    ∀ {as : List Nat} {bs : List (List String)}, List.Forall₂ R as bs →
      ∀ b ∈ bs, ∃ a, R a b := by
  intro as bs h
  induction h with
  | nil => intro b hb; cases hb
  | cons hR hrest ih =>
    intro b hb
    rcases List.mem_cons.mp hb with rfl | hm
    · exact ⟨_, hR⟩
    · exact ih b hm

/-- Claim C9 (confirmed): the default label of a node is exactly
`#<id>(<args joined by ", ">) -> <result>`, with a `, **<kwargs>` segment
inserted before the closing parenthesis exactly when the kwargs dict is
non-empty (no kwargs text at all otherwise); and the connector-style
rendering of a forest is the root subtrees separated by exactly one blank
line each, with no blank line after the last (no block is empty or contains
a blank line). -/
theorem c9_label_format_and_root_separation :
    (∀ (nid : Nat) (e : Entry), e.kwargs = [] →
      default_label nid e
        = "#" ++ toString nid ++ "(" ++ String.intercalate ", " e.args
            ++ ") -> " ++ e.result)
      ∧ (∀ (nid : Nat) (e : Entry), e.kwargs ≠ [] →
        default_label nid e
          = "#" ++ toString nid ++ "(" ++ String.intercalate ", " e.args
              ++ ", **" ++ dictStr e.kwargs ++ ") -> " ++ e.result)
      ∧ (∀ (fuel : Nat) (t : List (Nat × Entry)) (lines : List String),
        print_ascii_tree fuel t = some lines →
        ∃ blocks, lines = sepByBlank blocks
          ∧ List.Forall₂ (fun r b => rootBlock t (build_children t).1 fuel r = some b)
              (build_children t).2 blocks
          ∧ ∀ b ∈ blocks, b ≠ [] ∧ ∀ l ∈ b, l ≠ "") := by
  refine ⟨?_, ?_, ?_⟩
  · intro nid e he
    unfold default_label
    rw [if_pos (by rw [he]; rfl)]
  · intro nid e he
    unfold default_label
    rw [if_neg ?_]
    intro hie
    cases hkk : e.kwargs with
    | nil => exact he hkk
    | cons a l2 =>
      rw [hkk] at hie
      cases hie
  · intro fuel t lines h
    obtain ⟨blocks, hb1, hb2⟩ := asciiRoots_blocks t (build_children t).1 fuel _ lines h
    refine ⟨blocks, hb1, hb2, ?_⟩
    intro b hb
    obtain ⟨r, hr⟩ := forall₂_exists_left hb2 b hb
    exact rootBlock_shape t (build_children t).1 fuel r b hr

/-- A three-node table with two roots, used to exercise the renderer. -/
def sampleTable : List (Nat × Entry) :=
  [(0, ⟨none, ["a"], [], "r0"⟩), (1, ⟨some 0, ["b"], [], "r1"⟩),
   (2, ⟨none, ["c"], [], "r2"⟩)]

/-- Claim C9 witness: concrete labels with and without kwargs, and the
rendering of a two-root forest decomposes into blank-separated blocks. -/
theorem c9_label_format_and_root_separation_witness :
    default_label 3 ⟨none, ["1", "2"], [], "7"⟩ = "#3(1, 2) -> 7"
      ∧ default_label 4 ⟨none, ["1"], [("k", "v")], "9"⟩
          = "#4(1, **\x7b\x27k\x27: v\x7d) -> 9"
      ∧ ∃ blocks,
          ["#0(a) -> r0", "└── #1(b) -> r1", "", "#2(c) -> r2"] = sepByBlank blocks
          ∧ List.Forall₂
              (fun r b => rootBlock sampleTable (build_children sampleTable).1 5 r = some b)
              (build_children sampleTable).2 blocks
          ∧ ∀ b ∈ blocks, b ≠ [] ∧ ∀ l ∈ b, l ≠ "" := by
  refine ⟨?_, ?_, ?_⟩
  · rw [c9_label_format_and_root_separation.1 3 ⟨none, ["1", "2"], [], "7"⟩ rfl]
    rfl
  · rw [c9_label_format_and_root_separation.2.1 4 ⟨none, ["1"], [("k", "v")], "9"⟩
      (by intro hc; cases hc)]
    rfl
  · exact c9_label_format_and_root_separation.2.2 5 sampleTable
      ["#0(a) -> r0", "└── #1(b) -> r1", "", "#2(c) -> r2"] rfl

/-- A one-node table whose parent id 7 is not a key of the table. -/
def danglingTable : List (Nat × Entry) := [(0, ⟨some 7, ["x"], [], "r"⟩)]

/-- Claim C5 (counterexample): `_build_children` collects only `parent is
None` nodes into `roots`, so a node whose declared parent id is absent from
the table is NOT treated as an additional root by the Tree Indexer: on the
one-node table with dangling parent 7 the root set is empty and both textual
renderers print nothing at all, instead of rendering the node as a root. -/
theorem c5_indexer_drops_dangling_counterexample :
    (build_children danglingTable).2 = []
      ∧ print_ascii_tree 5 danglingTable = some []
      ∧ print_indented 5 danglingTable = some [] := by
  exact ⟨rfl, rfl, rfl⟩

end Tracer
